import Mathlib

/-!
Verification development for the url-db core: a domain-partitioned catalog
of URL nodes with composite-key addressing, schema-validated attributes,
a cascading dependency graph, and an event/subscription pipeline.

The repository ships the core behind a tool-invocation boundary; the
definitions below embed the core's data model and operations.  Where the
core implementation itself is not present in the source tree (only its
test-suite callers are), the definitions are modelled from the
specification, as indicated on each definition.
-/

namespace UrlDb

/-- Modelled from the spec: the error taxonomy of §7 (the core's typed,
recoverable error kinds surfaced to the caller). -/
inductive Err where
  | notFound
  | duplicateDomain
  | duplicateURL
  | duplicateAttribute
  | duplicateEdge
  | schemaViolation
  | invalidFilter
  | invalidKey
deriving DecidableEq, Repr

/-! ### Key Authority

Modelled from the spec (§4.1) and from the composite-id format exercised by
the test suite (`url-db:<domain>:<local_id>` for nodes and
`url-db:<domain>:attr-<id>` for attribute entities): the implementation of
the Key Authority is not in the source tree.  Keys are embedded as lists of
characters; formatting joins the segments with `:` and parsing is the
inverse. -/

/-- Decimal digit to character (used when rendering a local id). -/
def digitChar (d : Nat) : Char :=
  if d = 0 then '0' else if d = 1 then '1' else if d = 2 then '2' else
  if d = 3 then '3' else if d = 4 then '4' else if d = 5 then '5' else
  if d = 6 then '6' else if d = 7 then '7' else if d = 8 then '8' else '9'

/-- Character to decimal digit (non-digits map to 0; parsing guards with
`isDigitChar` first). -/
def charDigit (c : Char) : Nat :=
  if c = '1' then 1 else if c = '2' then 2 else if c = '3' then 3 else
  if c = '4' then 4 else if c = '5' then 5 else if c = '6' then 6 else
  if c = '7' then 7 else if c = '8' then 8 else if c = '9' then 9 else 0

/-- Whether a character is a decimal digit. -/
def isDigitChar (c : Char) : Bool :=
  c == '0' || c == '1' || c == '2' || c == '3' || c == '4' ||
  c == '5' || c == '6' || c == '7' || c == '8' || c == '9'

/-- Decimal rendering of a natural number, most significant digit first. -/
def natChars (n : Nat) : List Char :=
  if n = 0 then ['0'] else ((Nat.digits 10 n).map digitChar).reverse

/-- Strict decimal parsing: non-empty, all digits, no leading zero
(except the single-digit `"0"` itself). -/
def parseDigits (ds : List Char) : Option Nat :=
  if ds ≠ [] ∧ (∀ c ∈ ds, isDigitChar c = true) ∧
      (ds = ['0'] ∨ ds.head? ≠ some '0') then
    some (Nat.ofDigits 10 (ds.reverse.map charDigit))
  else
    none

/-- A parsed composite key: namespace, domain name, local id, and the
entity-type discriminator (`true` for schema/attribute entities, which
carry the `attr-` token segment). -/
structure ParsedKey where
  namesp : List Char
  domain : List Char
  localId : Nat
  isAttrKey : Bool
deriving DecidableEq, Repr

/-- The `attr-` token segment that distinguishes attribute-entity keys. -/
def attrToken : List Char := ['a', 't', 't', 'r', '-']

/-- Format a composite key: `namespace:domain:id`, with the `attr-` token
in front of the id for attribute entities. -/
def formatKey (k : ParsedKey) : List Char :=
  k.namesp ++ ':' ::
    (k.domain ++ ':' :: ((if k.isAttrKey then attrToken else []) ++ natChars k.localId))

/-- Split a character list on `:` separators. -/
def splitColon : List Char → List (List Char)
  | [] => [[]]
  | c :: cs =>
    if c = ':' then [] :: splitColon cs
    else
      match splitColon cs with
      | [] => [[c]]
      | s :: ss => (c :: s) :: ss

/-- Join segments back with `:` separators (specification device for the
split). -/
def joinColon : List (List Char) → List Char
  | [] => []
  | [a] => a
  | a :: rest => a ++ ':' :: joinColon rest

/-- Does `s` start with the segment `p`? -/
def listStartsWith : List Char → List Char → Bool
  | [], _ => true
  | _ :: _, [] => false
  | p :: ps, c :: cs => p == c && listStartsWith ps cs

/-- A key the Key Authority would itself issue: non-empty, colon-free
namespace and domain segments (the domain name is a namespace token). -/
def WFKey (k : ParsedKey) : Prop :=
  k.namesp ≠ [] ∧ (∀ c ∈ k.namesp, c ≠ ':') ∧
  k.domain ≠ [] ∧ (∀ c ∈ k.domain, c ≠ ':')

instance (k : ParsedKey) : Decidable (WFKey k) := by
  unfold WFKey; infer_instance

/-- Parse a composite key string; malformed input fails `InvalidKey`. -/
def parseKey (s : List Char) : Except Err ParsedKey :=
  match splitColon s with
  | [ns, d, seg] =>
    if ns = [] ∨ d = [] then .error .invalidKey
    else if listStartsWith attrToken seg then
      match parseDigits (seg.drop attrToken.length) with
      | some n => .ok ⟨ns, d, n, true⟩
      | none => .error .invalidKey
    else
      match parseDigits seg with
      | some n => .ok ⟨ns, d, n, false⟩
      | none => .error .invalidKey
  | _ => .error .invalidKey

/-! ### Data model

Modelled from the spec (§3): the Node Store / Dependency Graph / Event
Pipeline implementation is not in the source tree (only its test-suite
callers under `tests/` are). -/

/-- Modelled from the spec: the six attribute types of §3 (`str` stands for
the spec's `string` type). -/
inductive AttrType where
  | tag
  | orderedTag
  | number
  | str
  | markdown
  | image
deriving DecidableEq, Repr

/-- Modelled from the spec: a Domain record. -/
structure Domain where
  name : String
  description : String
  createdAt : Nat
  updatedAt : Nat
deriving DecidableEq, Repr

/-- Modelled from the spec: per-domain attribute type definition. -/
structure DomainAttribute where
  domain : String
  name : String
  attrType : AttrType
  description : String
deriving DecidableEq, Repr

/-- Modelled from the spec: the internal `(domain_name, local_id)` pair
addressing a node (exposed externally only through the composite key). -/
structure NodeKey where
  domain : String
  localId : Nat
deriving DecidableEq, Repr

/-- Modelled from the spec: a Node record. -/
structure Node where
  key : NodeKey
  url : String
  title : String
  description : String
  createdAt : Nat
  updatedAt : Nat
deriving DecidableEq, Repr

/-- Modelled from the spec: a node attribute value row. -/
structure NodeAttributeValue where
  node : NodeKey
  name : String
  value : String
  orderIndex : Option Nat
deriving DecidableEq, Repr

/-- Modelled from the spec: dependency edge types. -/
inductive DepType where
  | hard
  | soft
  | reference
deriving DecidableEq, Repr

/-- Modelled from the spec: a directed typed dependency edge. -/
structure Dependency where
  source : NodeKey
  target : NodeKey
  depType : DepType
  cascadeDelete : Bool
  cascadeUpdate : Bool
  description : String
  metadata : List (String × String)
deriving DecidableEq, Repr

/-- Modelled from the spec: the event type enum. -/
inductive EventType where
  | nodeCreated
  | nodeUpdated
  | nodeDeleted
  | attributeChanged
deriving DecidableEq, Repr

/-- Modelled from the spec: event processing status. -/
inductive EventStatus where
  | pending
  | processed
deriving DecidableEq, Repr

/-- Modelled from the spec: an Event record (immutable once written; only
`status` transitions). -/
structure Event where
  id : Nat
  nodeKey : NodeKey
  eventType : EventType
  before : Option Node
  after : Option Node
  status : EventStatus
  createdAt : Nat
deriving DecidableEq, Repr

/-- Modelled from the spec: a subscription registration. -/
structure Subscription where
  id : Nat
  nodeKey : NodeKey
  subscriberService : String
  subscriberEndpoint : Option String
  eventTypes : List EventType
deriving DecidableEq, Repr

/-- Modelled from the spec: the whole core state behind the narrow
transactional store interface of §6, together with the id counters
(composite keys are never reused after deletion, so each domain keeps a
monotonically increasing `local_id` counter) and a logical clock used for
timestamps. -/
structure Store where
  domains : List Domain
  domainAttrs : List DomainAttribute
  nodes : List Node
  attrValues : List NodeAttributeValue
  deps : List Dependency
  events : List Event
  subs : List Subscription
  nextLocalIds : List (String × Nat)
  nextEventId : Nat
  nextSubId : Nat
  clock : Nat
deriving DecidableEq, Repr

/-- Look a node up by key. -/
def Store.findNode (s : Store) (k : NodeKey) : Option Node :=
  s.nodes.find? (fun n => n.key == k)

/-- Does a node with this key exist? -/
def Store.nodeExists (s : Store) (k : NodeKey) : Bool :=
  s.nodes.any (fun n => n.key == k)

/-- Current `local_id` counter of a domain (ids start at 1). -/
def Store.localIdCounter (s : Store) (d : String) : Nat :=
  match s.nextLocalIds.find? (fun p => p.1 == d) with
  | some p => p.2
  | none => 1

/-- Advance a domain's `local_id` counter. -/
def Store.bumpLocalId (s : Store) (d : String) : Store :=
  { s with nextLocalIds :=
      (d, s.localIdCounter d + 1) :: s.nextLocalIds.filter (fun p => p.1 != d) }

/-- Modelled from the spec: `recordEvent` (§4.5), the internal append to
the append-only event log; new events start `pending`. -/
def Store.recordEvent (s : Store) (k : NodeKey) (t : EventType)
    (bef aft : Option Node) : Store :=
  { s with
    events := s.events ++ [⟨s.nextEventId, k, t, bef, aft, .pending, s.clock⟩],
    nextEventId := s.nextEventId + 1 }

/-! ### Node Store operations (spec §4.3) -/

/-- Modelled from the spec: `createDomain(name, description)` — fails with
the duplicate-domain error on a duplicate name, otherwise returns the new
Domain with timestamps. -/
def createDomain (s : Store) (name descr : String) :
    Except Err (Domain × Store) :=
  if s.domains.any (fun d => d.name == name) then
    .error .duplicateDomain
  else
    let d : Domain := ⟨name, descr, s.clock, s.clock⟩
    .ok (d, { s with domains := s.domains ++ [d], clock := s.clock + 1 })

/-- Modelled from the spec: `createNode(domain, url, title, description)` —
auto-creates the domain if absent, fails `DuplicateURL` if `(domain, url)`
exists, assigns the next `local_id`, emits `node.created`. -/
def createNode (s : Store) (domainName url title descr : String) :
    Except Err (Node × Store) :=
  let s0 :=
    if s.domains.any (fun d => d.name == domainName) then s
    else { s with domains := s.domains ++ [⟨domainName, "", s.clock, s.clock⟩] }
  if s0.nodes.any (fun n => n.key.domain == domainName && n.url == url) then
    .error .duplicateURL
  else
    let node : Node :=
      ⟨⟨domainName, s0.localIdCounter domainName⟩, url, title, descr, s0.clock, s0.clock⟩
    let s1 := Store.bumpLocalId { s0 with nodes := s0.nodes ++ [node] } domainName
    let s2 := s1.recordEvent node.key .nodeCreated none (some node)
    .ok (node, { s2 with clock := s2.clock + 1 })

/-- Modelled from the spec: `getNode(key)` — fails `NotFound` if absent. -/
def getNode (s : Store) (k : NodeKey) : Except Err Node :=
  match s.findNode k with
  | some n => .ok n
  | none => .error .notFound

/-- Modelled from the spec: `findByURL(domain, url)` — fails `NotFound` if
absent. -/
def findByURL (s : Store) (domainName url : String) : Except Err Node :=
  match s.nodes.find? (fun n => n.key.domain == domainName && n.url == url) with
  | some n => .ok n
  | none => .error .notFound

/-- The partial field set of `updateNode`: only supplied fields change. -/
structure UpdateFields where
  url : Option String
  title : Option String
  description : Option String
deriving DecidableEq, Repr

/-- Apply a partial field update to a node. -/
def applyFields (n : Node) (f : UpdateFields) (now : Nat) : Node :=
  { n with
    url := f.url.getD n.url,
    title := f.title.getD n.title,
    description := f.description.getD n.description,
    updatedAt := now }

/-- Modelled from the spec: `updateNode(key, partial fields)` — only
supplied fields change, captures `before`/`after`, emits `node.updated`,
fails `NotFound` if the node is gone. -/
def updateNode (s : Store) (k : NodeKey) (f : UpdateFields) :
    Except Err (Node × Store) :=
  match s.findNode k with
  | none => .error .notFound
  | some old =>
    let new := applyFields old f s.clock
    let s1 := { s with nodes := s.nodes.map (fun n : Node => if n.key == k then new else n) }
    let s2 := s1.recordEvent k .nodeUpdated (some old) (some new)
    .ok (new, { s2 with clock := s2.clock + 1 })

/-! ### Dependency graph and cascade deletion (spec §4.4) -/

/-- One breadth step of the cascade closure: add every existing target of a
`cascade_delete = true` edge whose source is already in the set. -/
def cascadeExpand (s : Store) (v : List NodeKey) : List NodeKey :=
  v ++ ((s.deps.filter (fun d =>
      v.contains d.source && d.cascadeDelete && s.nodeExists d.target
        && !v.contains d.target)).map (fun d => d.target)).dedup

/-- Iterate the cascade step. -/
def cascadeIter (s : Store) : Nat → List NodeKey → List NodeKey
  | 0, v => v
  | k + 1, v => cascadeIter s k (cascadeExpand s v)

/-- Modelled from the spec: the full cascade set of a deletion, computed
first under a stable snapshot (§5); iterating as many times as there are
nodes reaches the closure, and the visited set makes the traversal
cycle-safe. -/
def cascadeSet (s : Store) (k : NodeKey) : List NodeKey :=
  cascadeIter s s.nodes.length [k]

/-- Modelled from the spec: `deleteNode(key)` — fails `NotFound` if absent;
otherwise removes the cascade set of nodes, their attribute values and
every edge touching them, and emits one `node.deleted` event per deleted
node. Already-recorded events are never removed. -/
def deleteNode (s : Store) (k : NodeKey) : Except Err Store :=
  if s.nodeExists k then
    let del := cascadeSet s k
    let deleted := s.nodes.filter (fun n => del.contains n.key)
    let s1 := { s with
      nodes := s.nodes.filter (fun n => !del.contains n.key),
      attrValues := s.attrValues.filter (fun v => !del.contains v.node),
      deps := s.deps.filter (fun d =>
        !del.contains d.source && !del.contains d.target) }
    let s2 := deleted.foldl (fun acc n =>
      acc.recordEvent n.key .nodeDeleted (some n) none) s1
    .ok { s2 with clock := s2.clock + 1 }
  else .error .notFound

/-! ### Schema validation and attributes (spec §4.2, §4.3) -/

/-- An entry of a `setAttributes` call. -/
structure AttrEntry where
  name : String
  value : String
  orderIndex : Option Nat
deriving DecidableEq, Repr

/-- Does a string parse as a (decimal) numeric value? -/
def isNumericString (v : String) : Bool :=
  !v.data.isEmpty && v.data.all isDigitChar

/-- Modelled from the spec: `validate(domain, name, value)` (§4.2) — the
attribute must exist in the domain; `number` values must parse as numeric;
`ordered_tag` requires an order index; all other types pass through. -/
def validateEntry (s : Store) (domainName : String) (e : AttrEntry) : Bool :=
  match s.domainAttrs.find? (fun a => a.domain == domainName && a.name == e.name) with
  | none => false
  | some a =>
    match a.attrType with
    | .number => isNumericString e.value
    | .orderedTag => e.orderIndex.isSome
    | _ => true

/-- Write one validated attribute entry: multi-valued types (tag and
ordered_tag) append, single-valued types replace the prior value. -/
def applyEntry (s : Store) (k : NodeKey) (e : AttrEntry) : Store :=
  match s.domainAttrs.find? (fun a => a.domain == k.domain && a.name == e.name) with
  | none => s
  | some a =>
    match a.attrType with
    | .tag | .orderedTag =>
      { s with attrValues := s.attrValues ++ [⟨k, e.name, e.value, e.orderIndex⟩] }
    | _ =>
      { s with attrValues :=
          (s.attrValues.filter (fun v => !(v.node == k && v.name == e.name)))
            ++ [⟨k, e.name, e.value, e.orderIndex⟩] }

/-- Modelled from the spec: `setAttributes(key, entries)` — validates every
entry against the Schema Registry before applying any; on any validation
failure the whole call fails `SchemaViolation` with no value written
(all-or-nothing); on success emits one `attribute_changed` event per
distinct attribute name touched. -/
def setAttributes (s : Store) (k : NodeKey) (entries : List AttrEntry) :
    Except Err Store :=
  match s.findNode k with
  | none => .error .notFound
  | some _ =>
    if entries.all (fun e => validateEntry s k.domain e) then
      let s1 := entries.foldl (fun acc e => applyEntry acc k e) s
      let s2 := ((entries.map (fun e => e.name)).dedup).foldl
        (fun acc _n => acc.recordEvent k .attributeChanged none none) s1
      .ok { s2 with clock := s2.clock + 1 }
    else .error .schemaViolation

/-- `getAttributes(key)`: the attribute value rows of a node. -/
def getAttributes (s : Store) (k : NodeKey) : List NodeAttributeValue :=
  s.attrValues.filter (fun v => v.node == k)

/-- The dispatcher keeps the prior state when a call returns an error
(errors are structured results; a failed call writes nothing). -/
def execStore (r : Except Err Store) (s : Store) : Store :=
  match r with
  | .ok s' => s'
  | .error _ => s

/-! ### Event pipeline (spec §4.5) -/

/-- Modelled from the spec: `getNodeEvents(node)` — all events for a node
in creation order (oldest first). -/
def getNodeEvents (s : Store) (k : NodeKey) : List Event :=
  s.events.filter (fun e => e.nodeKey == k)

/-- Modelled from the spec: `getPendingEvents` — globally pending events in
creation order. -/
def getPendingEvents (s : Store) : List Event :=
  s.events.filter (fun e => e.status == .pending)

/-- Modelled from the spec: `processEvent(event_id)` — transitions
`pending → processed`; idempotent; fails `NotFound` for an unknown id. -/
def processEvent (s : Store) (id : Nat) : Except Err Store :=
  if s.events.any (fun e => e.id == id) then
    .ok { s with events := s.events.map (fun e =>
      if e.id == id then { e with status := .processed } else e) }
  else .error .notFound

/-! ### Subscription registry (spec §4.6) -/

/-- Decode an external event-type name into the event type enum. -/
def eventTypeOfString (t : String) : Option EventType :=
  if t == "node.created" then some .nodeCreated
  else if t == "node.updated" then some .nodeUpdated
  else if t == "node.deleted" then some .nodeDeleted
  else if t == "attribute_changed" then some .attributeChanged
  else none

/-- Decode a whole list of event-type names; `none` as soon as any name is
outside the enum. -/
def parseEventTypes : List String → Option (List EventType)
  | [] => some []
  | t :: ts =>
    match eventTypeOfString t, parseEventTypes ts with
    | some e, some es => some (e :: es)
    | _, _ => none

/-- Modelled from the spec: `createSubscription(node, subscriber_service,
event_types, endpoint?)` — fails `NotFound` if the node is absent;
`event_types` must be a non-empty subset of the event type enum, else
`InvalidFilter`. -/
def createSubscription (s : Store) (k : NodeKey) (service : String)
    (eventTypes : List String) (endpoint : Option String) :
    Except Err (Subscription × Store) :=
  if !s.nodeExists k then .error .notFound
  else if eventTypes.isEmpty then .error .invalidFilter
  else
    match parseEventTypes eventTypes with
    | none => .error .invalidFilter
    | some ts =>
      let sub : Subscription := ⟨s.nextSubId, k, service, endpoint, ts⟩
      .ok (sub, { s with subs := s.subs ++ [sub], nextSubId := s.nextSubId + 1 })

/-! ### Query/Filter engine (spec §4.7) -/

/-- Filter operators: exact match and case-sensitive substring. -/
inductive FilterOp where
  | equals
  | containsOp
deriving DecidableEq, Repr

/-- One attribute filter of a `filterNodes` call. -/
structure AttrFilter where
  name : String
  value : String
  op : FilterOp
deriving DecidableEq, Repr

/-- Does `s` start with `pat`? (generic over the element type). -/
def startsWithSeg (pat s : List Char) : Bool :=
  listStartsWith pat s

/-- Case-sensitive substring test. -/
def containsSub (pat : List Char) : List Char → Bool
  | [] => pat.isEmpty
  | c :: cs => listStartsWith pat (c :: cs) || containsSub pat cs

/-- Does one attribute value row satisfy a filter? -/
def valueMatches (f : AttrFilter) (v : NodeAttributeValue) : Bool :=
  v.name == f.name &&
    match f.op with
    | .equals => v.value == f.value
    | .containsOp => containsSub f.value.data v.value.data

/-- A node matches a filter when at least one of its values for the named
attribute satisfies the operator. -/
def nodeMatchesFilter (s : Store) (n : Node) (f : AttrFilter) : Bool :=
  s.attrValues.any (fun v => v.node == n.key && valueMatches f v)

/-- The conjunctive (AND) match set of a `filterNodes` call, in stable
creation order. -/
def matchingNodes (s : Store) (domainName : String)
    (filters : List AttrFilter) : List Node :=
  s.nodes.filter (fun n =>
    n.key.domain == domainName && filters.all (fun f => nodeMatchesFilter s n f))

/-- The paged result of a `filterNodes` call. -/
structure PageResult where
  nodes : List Node
  totalCount : Nat
  totalPages : Nat
deriving DecidableEq, Repr

/-- Modelled from the spec: `filterNodes(domain, filters, page, size)` —
conjunctive filters, 1-indexed pages of fixed size, `total_count` and
`total_pages = ceil(total_count / size)`. -/
def filterNodes (s : Store) (domainName : String) (filters : List AttrFilter)
    (page size : Nat) : PageResult :=
  let ms := matchingNodes s domainName filters
  { nodes := (ms.drop ((page - 1) * size)).take size,
    totalCount := ms.length,
    totalPages := (ms.length + size - 1) / size }

/-- Dispatcher view of a call returning a value and a store: on error the
prior state is kept. -/
def execStoreP {α : Type} (r : Except Err (α × Store)) (s : Store) : Store :=
  match r with
  | .ok (_, s') => s'
  | .error _ => s

/-- The empty store (used for concrete instances). -/
def emptyStore : Store := ⟨[], [], [], [], [], [], [], [], 0, 0, 0⟩

/-- A store holding a single node `d:1` (used for concrete instances). -/
def nodeStore1 : Store :=
  ⟨[], [], [⟨⟨"d", 1⟩, "u", "t", "x", 0, 0⟩], [], [], [], [], [], 0, 0, 0⟩

/-- A store holding one node `d:1` whose domain schema defines only the
tag attribute `category`, with one stored value (used for concrete
instances). -/
def attrStore : Store :=
  ⟨[], [⟨"d", "category", .tag, ""⟩], [⟨⟨"d", 1⟩, "u", "t", "x", 0, 0⟩],
    [⟨⟨"d", 1⟩, "category", "old", none⟩], [], [], [], [], 0, 0, 0⟩

/-- Run a sequence of `updateNode` calls on the same node, `none` as soon
as one fails. -/
def applyUpdates : Store → NodeKey → List UpdateFields → Option Store
  | s, _, [] => some s
  | s, k, f :: fs =>
    match updateNode s k f with
    | .ok (_, s') => applyUpdates s' k fs
    | .error _ => none

/-- How many `node.updated` events `getNodeEvents` reports for a node. -/
def countUpdatedEvents (s : Store) (k : NodeKey) : Nat :=
  (getNodeEvents s k).countP (fun e => e.eventType == .nodeUpdated)

/-- A store with domain `shop`, three nodes whose `category` is
`electronics` and one whose `category` is `books` (used for concrete
instances). -/
def shopStore : Store :=
  ⟨[⟨"shop", "", 0, 0⟩], [⟨"shop", "category", .tag, ""⟩],
    [⟨⟨"shop", 1⟩, "u1", "A", "", 0, 0⟩, ⟨⟨"shop", 2⟩, "u2", "B", "", 0, 0⟩,
      ⟨⟨"shop", 3⟩, "u3", "C", "", 0, 0⟩, ⟨⟨"shop", 4⟩, "u4", "D", "", 0, 0⟩],
    [⟨⟨"shop", 1⟩, "category", "electronics", none⟩,
      ⟨⟨"shop", 2⟩, "category", "electronics", none⟩,
      ⟨⟨"shop", 3⟩, "category", "electronics", none⟩,
      ⟨⟨"shop", 4⟩, "category", "books", none⟩],
    [], [], [], [], 0, 0, 5⟩

/-- Reachability through `cascade_delete = true` edges whose target is an
existing node: the set of nodes a deletion must cascade to. -/
inductive Reach (s : Store) (k : NodeKey) : NodeKey → Prop
  | refl : Reach s k k
  | step {m : NodeKey} (d : Dependency) (hm : Reach s k m) (hd : d ∈ s.deps)
      (hsrc : d.source = m) (hc : d.cascadeDelete = true)
      (ht : s.nodeExists d.target = true) : Reach s k d.target

/-- A store with nodes `d:1`, `d:2`, `d:3` and edges
`d:1 → d:2` (`hard`, `cascade_delete = true`) and `d:1 → d:3` (`soft`,
`cascade_delete = false`), used for concrete instances. -/
def cascadeStore : Store :=
  ⟨[], [],
    [⟨⟨"d", 1⟩, "u1", "A", "", 0, 0⟩, ⟨⟨"d", 2⟩, "u2", "B", "", 0, 0⟩,
      ⟨⟨"d", 3⟩, "u3", "C", "", 0, 0⟩],
    [],
    [⟨⟨"d", 1⟩, ⟨"d", 2⟩, .hard, true, false, "", []⟩,
      ⟨⟨"d", 1⟩, ⟨"d", 3⟩, .soft, false, false, "", []⟩],
    [], [], [], 0, 0, 0⟩

/-- A one-node store with a stored attribute value and one prior event
(used for concrete instances). -/
def delStore : Store :=
  ⟨[], [], [⟨⟨"d", 1⟩, "u", "t", "", 0, 0⟩], [⟨⟨"d", 1⟩, "cat", "x", none⟩], [],
    [⟨0, ⟨"d", 1⟩, .nodeCreated, none, none, .pending, 0⟩], [], [], 1, 0, 1⟩

/-! ### Digit lemmas -/

theorem charDigit_lt_ten (c : Char) : charDigit c < 10 := by
  unfold charDigit; split_ifs <;> omega

theorem isDigitChar_digitChar (d : Nat) : isDigitChar (digitChar d) = true := by
  unfold digitChar; split_ifs <;> rfl

theorem charDigit_digitChar {d : Nat} (h : d < 10) :
    charDigit (digitChar d) = d := by
  unfold digitChar
  split_ifs with h0 h1 h2 h3 h4 h5 h6 h7 h8 <;> simp [charDigit] <;> omega

theorem digitChar_charDigit {c : Char} (h : isDigitChar c = true) :
    digitChar (charDigit c) = c := by
  unfold isDigitChar at h
  simp only [Bool.or_eq_true, beq_iff_eq] at h
  rcases h with ((((((((h | h) | h) | h) | h) | h) | h) | h) | h) | h <;>
    subst h <;> rfl

theorem digitChar_ne_colon (d : Nat) : digitChar d ≠ ':' := by
  unfold digitChar; split_ifs <;> decide

theorem digitChar_ne_zero {d : Nat} (_hd : d < 10) (h : d ≠ 0) :
    digitChar d ≠ '0' := by
  unfold digitChar; split_ifs <;> first | omega | decide

theorem charDigit_eq_zero {c : Char} (hc : isDigitChar c = true)
    (h : charDigit c = 0) : c = '0' := by
  unfold isDigitChar at hc
  simp only [Bool.or_eq_true, beq_iff_eq] at hc
  rcases hc with ((((((((hc | hc) | hc) | hc) | hc) | hc) | hc) | hc) | hc) | hc <;>
    subst hc <;> first | rfl | simp [charDigit] at h

/-! ### natChars lemmas -/

theorem natChars_ne_nil (n : Nat) : natChars n ≠ [] := by
  unfold natChars
  split_ifs with h
  · simp
  · simp only [ne_eq, List.reverse_eq_nil_iff, List.map_eq_nil_iff]
    exact Nat.digits_ne_nil_iff_ne_zero.mpr h

theorem natChars_all_digit (n : Nat) :
    ∀ c ∈ natChars n, isDigitChar c = true := by
  unfold natChars
  split_ifs with h
  · intro c hc; simp at hc; subst hc; rfl
  · intro c hc
    simp only [List.mem_reverse, List.mem_map] at hc
    obtain ⟨e, _, rfl⟩ := hc
    exact isDigitChar_digitChar e

theorem natChars_no_colon (n : Nat) : ∀ c ∈ natChars n, c ≠ ':' := by
  intro c hc
  have := natChars_all_digit n c hc
  intro h; subst h; simp [isDigitChar] at this

theorem natChars_no_leading_zero (n : Nat) :
    natChars n = ['0'] ∨ (natChars n).head? ≠ some '0' := by
  unfold natChars
  split_ifs with h
  · exact Or.inl rfl
  · right
    rw [List.head?_reverse]
    have hne : (Nat.digits 10 n).map digitChar ≠ [] := by
      simp only [ne_eq, List.map_eq_nil_iff]
      exact Nat.digits_ne_nil_iff_ne_zero.mpr h
    rw [List.getLast?_eq_getLast _ hne, List.getLast_map]
    · intro hcontra
      have hlast : (Nat.digits 10 n).getLast (by
          exact Nat.digits_ne_nil_iff_ne_zero.mpr h) ≠ 0 :=
        Nat.getLast_digit_ne_zero 10 h
      have hlt : (Nat.digits 10 n).getLast (by
          exact Nat.digits_ne_nil_iff_ne_zero.mpr h) < 10 := by
        apply Nat.digits_lt_base (by norm_num)
        exact List.getLast_mem _
      exact digitChar_ne_zero hlt hlast (by simpa using hcontra)

theorem parseDigits_natChars (n : Nat) : parseDigits (natChars n) = some n := by
  unfold parseDigits
  rw [if_pos ⟨natChars_ne_nil n, natChars_all_digit n, natChars_no_leading_zero n⟩]
  congr 1
  by_cases h : n = 0
  · subst h; simp [natChars, charDigit, Nat.ofDigits]
  · unfold natChars
    rw [if_neg h, List.reverse_reverse, List.map_map]
    have heq : (Nat.digits 10 n).map (charDigit ∘ digitChar) = Nat.digits 10 n := by
      have := List.map_congr_left (l := Nat.digits 10 n)
        (f := charDigit ∘ digitChar) (g := id)
        (fun d hd => charDigit_digitChar (Nat.digits_lt_base (by norm_num) hd))
      simpa using this
    rw [heq, Nat.ofDigits_digits]

theorem parseDigits_complete {ds : List Char} {n : Nat}
    (h : parseDigits ds = some n) : natChars n = ds := by
  unfold parseDigits at h
  split_ifs at h with hcond
  obtain ⟨hne, hdig, hlead⟩ := hcond
  have hn : n = Nat.ofDigits 10 (ds.reverse.map charDigit) := by
    simpa using h.symm
  by_cases h0 : ds = ['0']
  · subst h0
    simp [charDigit, Nat.ofDigits] at hn
    subst hn; rfl
  · have hhead : ds.head? ≠ some '0' := hlead.resolve_left h0
    have hlnil : ds.reverse.map charDigit ≠ [] := by
      simp only [ne_eq, List.map_eq_nil_iff, List.reverse_eq_nil_iff]
      exact hne
    have hdigits : Nat.digits 10 n = ds.reverse.map charDigit := by
      rw [hn]
      apply Nat.digits_ofDigits 10 (by norm_num)
      · intro x hx
        simp only [List.mem_map, List.mem_reverse] at hx
        obtain ⟨c, _, rfl⟩ := hx
        exact charDigit_lt_ten c
      · intro _
        rw [List.getLast_map, List.getLast_reverse]
        · intro hzero
          have hc0 : ds.head (by exact hne) = '0' :=
            charDigit_eq_zero (hdig _ (List.head_mem hne)) hzero
          exact hhead (by rw [List.head?_eq_head hne, hc0])
    have hnz : n ≠ 0 := by
      intro hz
      rw [hz, Nat.digits_zero] at hdigits
      exact hlnil hdigits.symm
    unfold natChars
    rw [if_neg hnz, hdigits, List.map_map]
    have heq : (ds.reverse).map (digitChar ∘ charDigit) = ds.reverse := by
      have := List.map_congr_left (l := ds.reverse)
        (f := digitChar ∘ charDigit) (g := id)
        (fun c hc => digitChar_charDigit (hdig c (List.mem_reverse.mp hc)))
      simpa using this
    rw [heq, List.reverse_reverse]

/-! ### splitColon lemmas -/

theorem splitColon_ne_nil (s : List Char) : splitColon s ≠ [] := by
  induction s with
  | nil => simp [splitColon]
  | cons c cs ih =>
    unfold splitColon
    split_ifs
    · simp
    · cases h : splitColon cs <;> simp

theorem splitColon_no_colon {a : List Char} (h : ∀ c ∈ a, c ≠ ':') :
    splitColon a = [a] := by
  induction a with
  | nil => rfl
  | cons c cs ih =>
    unfold splitColon
    rw [if_neg (h c (by simp))]
    rw [ih (fun x hx => h x (by simp [hx]))]

theorem splitColon_append {a : List Char} (t : List Char)
    (h : ∀ c ∈ a, c ≠ ':') :
    splitColon (a ++ ':' :: t) = a :: splitColon t := by
  induction a with
  | nil => simp [splitColon]
  | cons c cs ih =>
    have hcons : splitColon ((c :: cs) ++ ':' :: t)
        = splitColon (c :: (cs ++ ':' :: t)) := by simp
    rw [hcons, splitColon, if_neg (h c (by simp)),
      ih (fun x hx => h x (by simp [hx]))]

theorem joinColon_splitColon (s : List Char) : joinColon (splitColon s) = s := by
  induction s with
  | nil => rfl
  | cons c cs ih =>
    unfold splitColon
    split_ifs with hc
    · subst hc
      unfold joinColon
      cases h : splitColon cs with
      | nil => exact absurd h (splitColon_ne_nil cs)
      | cons x xs =>
        rw [h] at ih
        simpa using ih
    · cases h : splitColon cs with
      | nil => exact absurd h (splitColon_ne_nil cs)
      | cons x xs =>
        simp only
        rw [h] at ih
        cases xs with
        | nil => simpa [joinColon] using congrArg (c :: ·) ih
        | cons y ys => simpa [joinColon] using congrArg (c :: ·) ih

theorem splitColon_mem_no_colon (s : List Char) :
    ∀ x ∈ splitColon s, ∀ c ∈ x, c ≠ ':' := by
  induction s with
  | nil => intro x hx c hc; simp [splitColon] at hx; subst hx; simp at hc
  | cons a as ih =>
    intro x hx c hc
    unfold splitColon at hx
    split_ifs at hx with ha
    · rcases List.mem_cons.mp hx with h | h
      · subst h; simp at hc
      · exact ih x h c hc
    · cases h : splitColon as with
      | nil => exact absurd h (splitColon_ne_nil as)
      | cons y ys =>
        rw [h] at hx
        rcases List.mem_cons.mp hx with hxx | hxx
        · subst hxx
          rcases List.mem_cons.mp hc with rfl | hcc
          · exact ha
          · exact ih y (by rw [h]; simp) c hcc
        · exact ih x (by rw [h]; simp [hxx]) c hc

/-! ### listStartsWith lemmas -/

theorem listStartsWith_append (p r : List Char) :
    listStartsWith p (p ++ r) = true := by
  induction p with
  | nil => rfl
  | cons c cs ih => simpa [listStartsWith] using ih

theorem listStartsWith_exists {p s : List Char}
    (h : listStartsWith p s = true) : ∃ r, s = p ++ r := by
  induction p generalizing s with
  | nil => exact ⟨s, rfl⟩
  | cons c cs ih =>
    cases s with
    | nil => simp [listStartsWith] at h
    | cons a as =>
      simp only [listStartsWith, Bool.and_eq_true, beq_iff_eq] at h
      obtain ⟨rfl, h2⟩ := h
      obtain ⟨r, rfl⟩ := ih h2
      exact ⟨r, rfl⟩

theorem not_listStartsWith_attr (n : Nat) :
    listStartsWith attrToken (natChars n) = false := by
  cases h : natChars n with
  | nil => exact absurd h (natChars_ne_nil n)
  | cons c cs =>
    have hc : isDigitChar c = true := natChars_all_digit n c (by rw [h]; simp)
    show listStartsWith ('a' :: ['t', 't', 'r', '-']) (c :: cs) = false
    simp only [listStartsWith, Bool.and_eq_false_iff, beq_eq_false_iff_ne, ne_eq]
    left
    intro hac
    rw [← hac] at hc
    simp [isDigitChar] at hc

theorem idSegment_no_colon (b : Bool) (n : Nat) :
    ∀ c ∈ (if b then attrToken else []) ++ natChars n, c ≠ ':' := by
  intro c hc
  rcases List.mem_append.mp hc with h | h
  · cases b with
    | true => simp only [if_pos] at h; fin_cases h <;> decide
    | false => simp at h
  · exact natChars_no_colon n c h

theorem splitColon_formatKey {k : ParsedKey} (hwf : WFKey k) :
    splitColon (formatKey k) =
      [k.namesp, k.domain, (if k.isAttrKey then attrToken else []) ++ natChars k.localId] := by
  obtain ⟨_, hns, _, hd⟩ := hwf
  unfold formatKey
  rw [splitColon_append _ hns, splitColon_append _ hd,
    splitColon_no_colon (idSegment_no_colon k.isAttrKey k.localId)]

/-- Round trip: parsing a formatted well-formed key recovers that key. -/
theorem parseKey_formatKey {k : ParsedKey} (hwf : WFKey k) :
    parseKey (formatKey k) = .ok k := by
  obtain ⟨ns, d, n, b⟩ := k
  have hsplit := splitColon_formatKey hwf
  obtain ⟨hne1, _, hne2, _⟩ := hwf
  unfold parseKey
  rw [hsplit]
  simp only
  rw [if_neg (by push_neg; exact ⟨hne1, hne2⟩)]
  cases b with
  | true =>
    simp only [if_pos]
    rw [show listStartsWith attrToken (attrToken ++ natChars n) = true from
      listStartsWith_append _ _]
    simp only [if_pos]
    rw [List.drop_left, parseDigits_natChars]
  | false =>
    simp only [Bool.false_eq_true, if_false, List.nil_append]
    rw [not_listStartsWith_attr n]
    simp only [Bool.false_eq_true, if_false]
    rw [parseDigits_natChars]

/-- Completeness: a string that parses successfully is exactly the
formatting of the parsed (well-formed) key. -/
theorem parseKey_complete {s : List Char} {k : ParsedKey}
    (h : parseKey s = .ok k) : WFKey k ∧ formatKey k = s := by
  unfold parseKey at h
  split at h
  case h_2 => cases h
  case h_1 ns d seg heq =>
    have hjoin : s = ns ++ ':' :: (d ++ ':' :: seg) := by
      have hj := joinColon_splitColon s
      rw [heq] at hj
      simpa [joinColon] using hj.symm
    have hnocolon := splitColon_mem_no_colon s
    rw [heq] at hnocolon
    by_cases h1 : ns = [] ∨ d = []
    · rw [if_pos h1] at h; cases h
    rw [if_neg h1] at h
    push_neg at h1
    by_cases h2 : listStartsWith attrToken seg = true
    · rw [if_pos h2] at h
      cases hseg : parseDigits (seg.drop attrToken.length) with
      | none => rw [hseg] at h; cases h
      | some n =>
        rw [hseg] at h
        obtain rfl := Except.ok.inj h
        obtain ⟨r, hr⟩ := listStartsWith_exists h2
        have hrdrop : seg.drop attrToken.length = r := by
          rw [hr, List.drop_left]
        rw [hrdrop] at hseg
        have hnat : natChars n = r := parseDigits_complete (by simpa using hseg)
        refine ⟨⟨h1.1, fun c hc => hnocolon ns (by simp) c hc,
          h1.2, fun c hc => hnocolon d (by simp) c hc⟩, ?_⟩
        rw [hjoin]
        unfold formatKey
        simp only [if_pos]
        rw [hnat, ← hr]
    · rw [if_neg h2] at h
      cases hseg : parseDigits seg with
      | none => rw [hseg] at h; cases h
      | some n =>
        rw [hseg] at h
        obtain rfl := Except.ok.inj h
        have hnat : natChars n = seg := parseDigits_complete (by simpa using hseg)
        refine ⟨⟨h1.1, fun c hc => hnocolon ns (by simp) c hc,
          h1.2, fun c hc => hnocolon d (by simp) c hc⟩, ?_⟩
        rw [hjoin]
        unfold formatKey
        simp only [Bool.false_eq_true, if_false, List.nil_append]
        rw [hnat]

/-- Every parse failure reports `InvalidKey` and nothing else. -/
theorem parseKey_error_invalidKey {s : List Char} {e : Err}
    (h : parseKey s = .error e) : e = .invalidKey := by
  unfold parseKey at h
  repeat' split at h
  all_goals cases h
  all_goals rfl

/-- C5: Key Authority parsing is the strict inverse of formatting: every key
issued by the Key Authority (node keys and attribute keys carrying the
`attr-` token segment alike) satisfies `parse (format K) = K`; a successful
parse only ever returns the unique well-formed formatting preimage; and any
malformed composite-key string fails with `InvalidKey`. -/
theorem keyAuthority_parse_strict_inverse :
    (∀ k : ParsedKey, WFKey k → parseKey (formatKey k) = .ok k) ∧
    (∀ (s : List Char) (k : ParsedKey), parseKey s = .ok k →
      WFKey k ∧ formatKey k = s) ∧
    (∀ s : List Char, (¬ ∃ k, WFKey k ∧ formatKey k = s) →
      parseKey s = .error .invalidKey) := by
  refine ⟨fun k hwf => parseKey_formatKey hwf,
    fun s k h => parseKey_complete h, fun s hmal => ?_⟩
  cases hp : parseKey s with
  | ok k =>
    obtain ⟨hwf, hfmt⟩ := parseKey_complete hp
    exact absurd ⟨k, hwf, hfmt⟩ hmal
  | error e => rw [parseKey_error_invalidKey hp]

/-- Concrete instances of C5: a node key and an attribute key in the
`url-db` namespace both round-trip, and a colon-free string is rejected
with `InvalidKey`. -/
theorem keyAuthority_parse_strict_inverse_witness :
    parseKey (formatKey ⟨['u','r','l','-','d','b'], ['t','e','c','h'], 42, false⟩)
        = .ok ⟨['u','r','l','-','d','b'], ['t','e','c','h'], 42, false⟩ ∧
    parseKey (formatKey ⟨['u','r','l','-','d','b'], ['t','e','c','h'], 7, true⟩)
        = .ok ⟨['u','r','l','-','d','b'], ['t','e','c','h'], 7, true⟩ ∧
    parseKey ['x'] = .error .invalidKey := by
  refine ⟨keyAuthority_parse_strict_inverse.1 _ (by decide),
    keyAuthority_parse_strict_inverse.1 _ (by decide),
    keyAuthority_parse_strict_inverse.2.2 ['x'] ?_⟩
  rintro ⟨k, _, hfmt⟩
  have hm : ':' ∈ formatKey k := by simp [formatKey]
  rw [hfmt] at hm
  simp at hm

/-- A `find?` over an appended list skips a prefix with no match. -/
theorem find?_append_of_none {α : Type} {p : α → Bool} {l₁ : List α}
    (l₂ : List α) (h : l₁.find? p = none) :
    (l₁ ++ l₂).find? p = l₂.find? p := by
  induction l₁ with
  | nil => rfl
  | cons a as ih =>
    rw [List.find?_cons] at h
    rw [List.cons_append, List.find?_cons]
    cases hp : p a with
    | true => rw [hp] at h; cases h
    | false =>
      rw [hp] at h
      simp only []
      exact ih h

/-- C8: creating a domain whose name is already taken fails with the
duplicate-domain error (`DuplicateDomain` in the error taxonomy) and leaves
the set of domains unchanged; a fresh name succeeds and returns the new
Domain carrying both timestamps. -/
theorem createDomain_duplicate_rejected (s : Store) (name descr : String) :
    ((∃ d ∈ s.domains, d.name = name) →
      createDomain s name descr = .error .duplicateDomain ∧
      (execStoreP (createDomain s name descr) s).domains = s.domains) ∧
    ((∀ d ∈ s.domains, d.name ≠ name) →
      ∃ d s', createDomain s name descr = .ok (d, s') ∧
        d.name = name ∧ d.description = descr ∧
        d.createdAt = s.clock ∧ d.updatedAt = s.clock ∧
        s'.domains = s.domains ++ [d]) := by
  constructor
  · intro hdup
    have hany : s.domains.any (fun d => d.name == name) = true := by
      rw [List.any_eq_true]
      obtain ⟨d, hd, hname⟩ := hdup
      exact ⟨d, hd, by simpa using hname⟩
    have herr : createDomain s name descr = .error .duplicateDomain := by
      unfold createDomain
      rw [if_pos hany]
    exact ⟨herr, by rw [herr]; rfl⟩
  · intro hfresh
    have hany : s.domains.any (fun d => d.name == name) = false := by
      rw [List.any_eq_false]
      intro d hd
      simpa using hfresh d hd
    refine ⟨⟨name, descr, s.clock, s.clock⟩, ?_⟩
    refine ⟨{ s with domains := s.domains ++ [⟨name, descr, s.clock, s.clock⟩], clock := s.clock + 1 }, ?_, rfl, rfl, rfl, rfl, rfl⟩
    unfold createDomain
    rw [hany]
    rfl

/-- Concrete instance of C8: with one existing domain named `tech`,
re-creating `tech` is rejected with `DuplicateDomain` while `web` is
created fresh with both timestamps. -/
theorem createDomain_duplicate_rejected_witness :
    (createDomain ⟨[⟨"tech", "", 0, 0⟩], [], [], [], [], [], [], [], 0, 0, 5⟩
        "tech" "x" = .error .duplicateDomain ∧
      (execStoreP (createDomain ⟨[⟨"tech", "", 0, 0⟩], [], [], [], [], [], [], [], 0, 0, 5⟩
        "tech" "x") ⟨[⟨"tech", "", 0, 0⟩], [], [], [], [], [], [], [], 0, 0, 5⟩).domains
        = [⟨"tech", "", 0, 0⟩]) ∧
    (∃ d s', createDomain ⟨[⟨"tech", "", 0, 0⟩], [], [], [], [], [], [], [], 0, 0, 5⟩
        "web" "y" = .ok (d, s') ∧
      d.name = "web" ∧ d.description = "y" ∧
      d.createdAt = 5 ∧ d.updatedAt = 5 ∧
      s'.domains = [⟨"tech", "", 0, 0⟩] ++ [d]) :=
  ⟨(createDomain_duplicate_rejected _ "tech" "x").1
      ⟨⟨"tech", "", 0, 0⟩, by simp, rfl⟩,
    (createDomain_duplicate_rejected _ "web" "y").2 (by decide)⟩

/-- C7: creating a node with an unused URL and then looking it up with
`findByURL` on the same domain and URL returns that exact node; `findByURL`
fails `NotFound` when no node with that URL exists in the domain. -/
theorem createNode_findByURL_roundtrip (s : Store)
    (dn url title descr : String) (n : Node) (s' : Store) :
    (createNode s dn url title descr = .ok (n, s') →
      findByURL s' dn url = .ok n) ∧
    ((∀ m ∈ s.nodes, ¬(m.key.domain = dn ∧ m.url = url)) →
      findByURL s dn url = .error .notFound) := by
  constructor
  · intro h
    unfold createNode at h
    set s0 : Store :=
      if s.domains.any (fun d => d.name == dn) then s
      else { s with domains := s.domains ++ [⟨dn, "", s.clock, s.clock⟩] } with hs0
    by_cases hdup : s0.nodes.any (fun m => m.key.domain == dn && m.url == url) = true
    · rw [if_pos hdup] at h; cases h
    · rw [if_neg hdup] at h
      injection h with hpair
      injection hpair with hn hs'
      have hnone : s0.nodes.find? (fun m => m.key.domain == dn && m.url == url) = none := by
        rw [List.find?_eq_none]
        intro x hx
        have := List.any_eq_false.mp (Bool.not_eq_true _ ▸ hdup) x hx
        simp_all
      have hnodes : s'.nodes = s0.nodes ++
          [⟨⟨dn, s0.localIdCounter dn⟩, url, title, descr, s0.clock, s0.clock⟩] := by
        rw [← hs']; rfl
      have hfind : (s0.nodes ++
          [(⟨⟨dn, s0.localIdCounter dn⟩, url, title, descr, s0.clock, s0.clock⟩ : Node)]).find?
            (fun m => m.key.domain == dn && m.url == url) = some
          ⟨⟨dn, s0.localIdCounter dn⟩, url, title, descr, s0.clock, s0.clock⟩ := by
        rw [find?_append_of_none _ hnone]
        simp [List.find?]
      unfold findByURL
      rw [hnodes, hfind, hn]
  · intro habs
    have hnone : s.nodes.find? (fun m => m.key.domain == dn && m.url == url) = none := by
      rw [List.find?_eq_none]
      intro x hx
      have := habs x hx
      simp_all
    unfold findByURL
    rw [hnone]

/-- Concrete instance of C7: creating a node in a fresh store and then
finding it by URL returns that exact node, while the URL is `NotFound`
before the creation. -/
theorem createNode_findByURL_roundtrip_witness :
    ∃ n s', createNode emptyStore "shop" "https://a" "T" "D" = .ok (n, s') ∧
      findByURL s' "shop" "https://a" = .ok n ∧
      findByURL emptyStore "shop" "https://a" = .error .notFound := by
  have h : createNode emptyStore "shop" "https://a" "T" "D" =
      .ok (⟨⟨"shop", 1⟩, "https://a", "T", "D", 0, 0⟩,
        execStoreP (createNode emptyStore "shop" "https://a" "T" "D") emptyStore) := rfl
  exact ⟨_, _, h,
    (createNode_findByURL_roundtrip emptyStore "shop" "https://a" "T" "D" _ _).1 h,
    (createNode_findByURL_roundtrip emptyStore "shop" "https://a" "T" "D"
      ⟨⟨"shop", 1⟩, "https://a", "T", "D", 0, 0⟩ emptyStore).2 (by simp [emptyStore])⟩

/-- In a list of events with pairwise distinct ids, filtering for an id
that occurs finds exactly one record. -/
theorem filter_id_length_one {l : List Event} {i : Nat}
    (hn : (l.map Event.id).Nodup) (he : ∃ e ∈ l, e.id = i) :
    (l.filter (fun e => e.id == i)).length = 1 := by
  induction l with
  | nil => simp at he
  | cons a as ih =>
    simp only [List.map_cons, List.nodup_cons] at hn
    obtain ⟨hna, hnas⟩ := hn
    by_cases ha : a.id = i
    · rw [List.filter_cons_of_pos (by simpa using ha)]
      have hzero : (as.filter (fun e => e.id == i)).length = 0 := by
        rw [List.length_eq_zero, List.filter_eq_nil_iff]
        intro e hee hbe
        have hei : e.id = i := by simpa using hbe
        exact hna (by rw [ha, ← hei]; exact List.mem_map_of_mem _ hee)
      simp [hzero]
    · rw [List.filter_cons_of_neg (by simpa using ha)]
      apply ih hnas
      obtain ⟨e, hee, hid⟩ := he
      rcases List.mem_cons.mp hee with rfl | hmem
      · exact absurd hid ha
      · exact ⟨e, hmem, hid⟩

/-- C4: `processEvent` is idempotent: for an id that exists it succeeds,
processing again succeeds and returns the very same store, the store keeps
exactly one event record for that id (given pairwise distinct ids) and that
record is `processed`, no records are duplicated; an unknown id fails
`NotFound`. -/
theorem processEvent_idempotent (s : Store) (i : Nat) :
    ((∃ e ∈ s.events, e.id = i) →
      ∃ s', processEvent s i = .ok s' ∧
        processEvent s' i = .ok s' ∧
        ((s.events.map Event.id).Nodup →
          (s'.events.filter (fun e => e.id == i)).length = 1) ∧
        (∀ e ∈ s'.events, e.id = i → e.status = .processed) ∧
        s'.events.length = s.events.length) ∧
    ((∀ e ∈ s.events, e.id ≠ i) → processEvent s i = .error .notFound) := by
  have hg : ∀ e : Event,
      (if e.id == i then { e with status := EventStatus.processed } else e).id = e.id := by
    intro e; by_cases h : e.id == i <;> simp [h]
  set g : Event → Event :=
    fun e => if e.id == i then { e with status := .processed } else e with hgdef
  have hcomp : ((fun e : Event => e.id == i) ∘ g) = fun e : Event => e.id == i :=
    funext fun e => by rw [Function.comp_apply, hg]
  constructor
  · intro hex
    have hany : s.events.any (fun e => e.id == i) = true := by
      rw [List.any_eq_true]
      obtain ⟨e, he, hid⟩ := hex
      exact ⟨e, he, by simpa using hid⟩
    set s2 : Store := { s with events := s.events.map g } with hs2
    have hevents : s2.events = s.events.map g := rfl
    have hok : processEvent s i = .ok s2 := by
      unfold processEvent
      rw [if_pos hany]
    have hok2 : processEvent s2 i = .ok s2 := by
      have hany2 : s2.events.any (fun e => e.id == i) = true := by
        rw [hevents, List.any_map, hcomp]
        exact hany
      have hmm : s2.events.map g = s2.events := by
        rw [hevents, List.map_map]
        apply List.map_congr_left
        intro e _
        by_cases h : e.id = i
        · simp [hgdef, Function.comp, h]
        · simp [hgdef, Function.comp, h]
      unfold processEvent
      rw [if_pos hany2, hmm]
    refine ⟨s2, hok, hok2, ?_, ?_, by rw [hevents]; simp⟩
    · -- exactly one record for the id
      intro hnodup
      rw [hevents, List.filter_map, List.length_map, hcomp]
      exact filter_id_length_one hnodup hex
    · -- every record carrying the id is processed
      intro e he hid
      rw [hevents] at he
      simp only [List.mem_map] at he
      obtain ⟨e0, _, rfl⟩ := he
      rw [hgdef] at hid ⊢
      by_cases h : e0.id = i
      · simp [h]
      · simp only [beq_iff_eq, if_neg h] at hid ⊢
        exact absurd hid h
  · intro habs
    have hany : s.events.any (fun e => e.id == i) = false := by
      rw [List.any_eq_false]
      intro e he
      simpa using habs e he
    unfold processEvent
    rw [hany]
    rfl

/-- Concrete instance of C4: in a store holding one pending event with id
7, processing id 7 twice succeeds both times with the same result, one
processed record remains, and id 99 is `NotFound`. -/
theorem processEvent_idempotent_witness :
    (∃ s', processEvent ⟨[], [], [], [], [], [⟨7, ⟨"d", 1⟩, .nodeCreated, none, none, .pending, 0⟩], [], [], 8, 0, 1⟩ 7 = .ok s' ∧
      processEvent s' 7 = .ok s' ∧
      (s'.events.filter (fun e => e.id == 7)).length = 1 ∧
      (∀ e ∈ s'.events, e.id = 7 → e.status = .processed)) ∧
    processEvent ⟨[], [], [], [], [], [⟨7, ⟨"d", 1⟩, .nodeCreated, none, none, .pending, 0⟩], [], [], 8, 0, 1⟩ 99 = .error .notFound := by
  constructor
  · obtain ⟨s', h1, h2, h3, h4, _⟩ :=
      (processEvent_idempotent ⟨[], [], [], [], [], [⟨7, ⟨"d", 1⟩, .nodeCreated, none, none, .pending, 0⟩], [], [], 8, 0, 1⟩ 7).1
        ⟨⟨7, ⟨"d", 1⟩, .nodeCreated, none, none, .pending, 0⟩, by simp, rfl⟩
    exact ⟨s', h1, h2, h3 (by simp), h4⟩
  · exact (processEvent_idempotent _ 99).2 (by simp)

/-- A list with a name outside the enum fails to decode. -/
theorem parseEventTypes_none_of_bad {l : List String}
    (h : ∃ t ∈ l, eventTypeOfString t = none) : parseEventTypes l = none := by
  induction l with
  | nil => simp at h
  | cons a as ih =>
    obtain ⟨t, ht, hbad⟩ := h
    rcases List.mem_cons.mp ht with rfl | hmem
    · unfold parseEventTypes
      rw [hbad]
    · unfold parseEventTypes
      rw [ih ⟨t, hmem, hbad⟩]
      rcases eventTypeOfString a <;> rfl

/-- A list of names all inside the enum decodes successfully. -/
theorem parseEventTypes_some_of_good {l : List String}
    (h : ∀ t ∈ l, eventTypeOfString t ≠ none) :
    ∃ es, parseEventTypes l = some es := by
  induction l with
  | nil => exact ⟨[], rfl⟩
  | cons a as ih =>
    obtain ⟨e, he⟩ := Option.ne_none_iff_exists'.mp (h a (by simp))
    obtain ⟨es, hes⟩ := ih (fun t ht => h t (by simp [ht]))
    exact ⟨e :: es, by unfold parseEventTypes; rw [he, hes]⟩

/-- C9: `createSubscription` fails `NotFound` when the node does not
exist, and fails `InvalidFilter` unless `event_types` is a non-empty
subset of the defined event type enum: an empty list or a list containing
a name outside the enum is rejected; a non-empty all-valid list succeeds
and stores the registration. -/
theorem createSubscription_validation (s : Store) (k : NodeKey)
    (service : String) (eventTypes : List String) (endpoint : Option String) :
    (s.nodeExists k = false →
      createSubscription s k service eventTypes endpoint = .error .notFound) ∧
    (s.nodeExists k = true → eventTypes = [] →
      createSubscription s k service eventTypes endpoint = .error .invalidFilter) ∧
    (s.nodeExists k = true → (∃ t ∈ eventTypes, eventTypeOfString t = none) →
      createSubscription s k service eventTypes endpoint = .error .invalidFilter) ∧
    (s.nodeExists k = true → (∀ t ∈ eventTypes, eventTypeOfString t ≠ none) →
      eventTypes ≠ [] →
      ∃ sub s', createSubscription s k service eventTypes endpoint = .ok (sub, s') ∧
        sub.nodeKey = k ∧ sub.subscriberService = service ∧
        sub.subscriberEndpoint = endpoint ∧ s'.subs = s.subs ++ [sub]) := by
  refine ⟨?_, ?_, ?_, ?_⟩
  · intro h
    unfold createSubscription
    rw [h]
    rfl
  · intro h hempty
    subst hempty
    unfold createSubscription
    rw [h]
    rfl
  · intro h hbad
    unfold createSubscription
    rw [h, parseEventTypes_none_of_bad hbad]
    have : eventTypes ≠ [] := by
      obtain ⟨t, ht, _⟩ := hbad
      exact List.ne_nil_of_mem ht
    simp [List.isEmpty_iff, this]
  · intro h hgood hne
    obtain ⟨es, hes⟩ := parseEventTypes_some_of_good hgood
    refine ⟨⟨s.nextSubId, k, service, endpoint, es⟩, ?_⟩
    refine ⟨{ s with subs := s.subs ++ [⟨s.nextSubId, k, service, endpoint, es⟩], nextSubId := s.nextSubId + 1 }, ?_, rfl, rfl, rfl, rfl⟩
    unfold createSubscription
    rw [h, hes]
    simp [List.isEmpty_iff, hne]

/-- Concrete instances of C9: a missing node is `NotFound`; an empty list
and an unknown event-type name are `InvalidFilter`; a valid registration
is stored. -/
theorem createSubscription_validation_witness :
    createSubscription nodeStore1 ⟨"d", 2⟩ "svc" ["node.created"] none = .error .notFound ∧
    createSubscription nodeStore1 ⟨"d", 1⟩ "svc" [] none = .error .invalidFilter ∧
    createSubscription nodeStore1 ⟨"d", 1⟩ "svc" ["bogus"] none = .error .invalidFilter ∧
    (∃ sub s', createSubscription nodeStore1 ⟨"d", 1⟩ "svc" ["node.created", "node.deleted"] none = .ok (sub, s') ∧
      sub.nodeKey = ⟨"d", 1⟩ ∧ sub.subscriberService = "svc" ∧
      sub.subscriberEndpoint = none ∧ s'.subs = nodeStore1.subs ++ [sub]) :=
  ⟨(createSubscription_validation nodeStore1 ⟨"d", 2⟩ "svc" ["node.created"] none).1 (by decide),
    (createSubscription_validation nodeStore1 ⟨"d", 1⟩ "svc" [] none).2.1 (by decide) rfl,
    (createSubscription_validation nodeStore1 ⟨"d", 1⟩ "svc" ["bogus"] none).2.2.1 (by decide)
      ⟨"bogus", by simp, by decide⟩,
    (createSubscription_validation nodeStore1 ⟨"d", 1⟩ "svc" ["node.created", "node.deleted"] none).2.2.2
      (by decide) (by decide) (by simp)⟩

/-- C1: `setAttributes` is all-or-nothing under schema validation: an
attribute name absent from the node's domain schema always fails
validation; if any entry of the list fails validation (unknown name or
type-mismatched value) the whole call fails `SchemaViolation` and a
subsequent `getAttributes` returns exactly the values present before the
call; if every entry validates, the call succeeds. -/
theorem setAttributes_all_or_nothing (s : Store) (k : NodeKey)
    (entries : List AttrEntry) :
    (∀ e : AttrEntry,
      (∀ a ∈ s.domainAttrs, ¬(a.domain = k.domain ∧ a.name = e.name)) →
      validateEntry s k.domain e = false) ∧
    ((∃ n, s.findNode k = some n) →
      (∃ e ∈ entries, validateEntry s k.domain e = false) →
      setAttributes s k entries = .error .schemaViolation ∧
      getAttributes (execStore (setAttributes s k entries) s) k = getAttributes s k) ∧
    ((∃ n, s.findNode k = some n) →
      (∀ e ∈ entries, validateEntry s k.domain e = true) →
      ∃ s', setAttributes s k entries = .ok s') := by
  refine ⟨?_, ?_, ?_⟩
  · intro e habs
    unfold validateEntry
    rw [show s.domainAttrs.find? (fun a => a.domain == k.domain && a.name == e.name)
        = none from ?_]
    rw [List.find?_eq_none]
    intro a ha
    have := habs a ha
    simp_all
  · rintro ⟨n, hn⟩ hbad
    have hall : entries.all (fun e => validateEntry s k.domain e) = false := by
      obtain ⟨e, he, hval⟩ := hbad
      rcases hres : entries.all (fun e => validateEntry s k.domain e) with _ | _
      · rfl
      · have := List.all_eq_true.mp hres e he
        rw [hval] at this
        cases this
    have herr : setAttributes s k entries = .error .schemaViolation := by
      unfold setAttributes
      rw [hn, hall]
      rfl
    exact ⟨herr, by rw [herr]; rfl⟩
  · rintro ⟨n, hn⟩ hgood
    have hall : entries.all (fun e => validateEntry s k.domain e) = true :=
      List.all_eq_true.mpr hgood
    cases hres : setAttributes s k entries with
    | ok s' => exact ⟨s', rfl⟩
    | error e =>
      unfold setAttributes at hres
      rw [hn, hall] at hres
      simp at hres

/-- Concrete instance of C1: a node whose domain schema defines only the
tag attribute `category` rejects `invalid_attr` with `SchemaViolation` and
its attribute values are untouched, while a valid `category` write
succeeds. -/
theorem setAttributes_all_or_nothing_witness :
    validateEntry attrStore "d" ⟨"invalid_attr", "v", none⟩ = false ∧
    (setAttributes attrStore ⟨"d", 1⟩ [⟨"invalid_attr", "v", none⟩] = .error .schemaViolation ∧
      getAttributes (execStore (setAttributes attrStore ⟨"d", 1⟩ [⟨"invalid_attr", "v", none⟩]) attrStore) ⟨"d", 1⟩
        = [⟨⟨"d", 1⟩, "category", "old", none⟩]) ∧
    (∃ s', setAttributes attrStore ⟨"d", 1⟩ [⟨"category", "new", none⟩] = .ok s') := by
  refine ⟨?_, ?_, ?_⟩
  · exact (setAttributes_all_or_nothing attrStore ⟨"d", 1⟩ [⟨"invalid_attr", "v", none⟩]).1
      ⟨"invalid_attr", "v", none⟩ (by decide)
  · have h := (setAttributes_all_or_nothing attrStore ⟨"d", 1⟩ [⟨"invalid_attr", "v", none⟩]).2.1
      ⟨⟨⟨"d", 1⟩, "u", "t", "x", 0, 0⟩, by decide⟩
      ⟨⟨"invalid_attr", "v", none⟩, by simp, by decide⟩
    exact ⟨h.1, by rw [h.2]; rfl⟩
  · exact (setAttributes_all_or_nothing attrStore ⟨"d", 1⟩ [⟨"category", "new", none⟩]).2.2
      ⟨⟨⟨"d", 1⟩, "u", "t", "x", 0, 0⟩, by decide⟩ (by decide)

/-- Anatomy of a successful `updateNode`: the returned node is the partial
update of the stored one, and exactly one `node.updated` event carrying the
before/after snapshots is appended. -/
theorem updateNode_anatomy {s : Store} {k : NodeKey} {f : UpdateFields}
    {n : Node} {s' : Store} (h : updateNode s k f = .ok (n, s')) :
    ∃ old, s.findNode k = some old ∧ n = applyFields old f s.clock ∧
      s'.events = s.events ++
        [⟨s.nextEventId, k, .nodeUpdated, some old, some n, .pending, s.clock⟩] := by
  unfold updateNode at h
  cases hfind : s.findNode k with
  | none => rw [hfind] at h; cases h
  | some old =>
    rw [hfind] at h
    injection h with hpair
    injection hpair with hn hs'
    refine ⟨old, rfl, hn.symm, ?_⟩
    rw [← hs', ← hn]
    rfl

/-- The one new event of a successful `updateNode` is visible at the end of
`getNodeEvents` and bumps the `node.updated` count by exactly one. -/
theorem updateNode_count {s : Store} {k : NodeKey} {f : UpdateFields}
    {n : Node} {s' : Store} (h : updateNode s k f = .ok (n, s')) :
    countUpdatedEvents s' k = countUpdatedEvents s k + 1 := by
  obtain ⟨old, _, _, hev⟩ := updateNode_anatomy h
  unfold countUpdatedEvents getNodeEvents
  rw [hev, List.filter_append, List.countP_append]
  simp

/-- Event-count additivity over a successful sequence of updates. -/
theorem countUpdated_applyUpdates (k : NodeKey) :
    ∀ (fs : List UpdateFields) (s s'' : Store),
      applyUpdates s k fs = some s'' →
      countUpdatedEvents s'' k = countUpdatedEvents s k + fs.length := by
  intro fs
  induction fs with
  | nil =>
    intro s s'' h
    injection h with h
    rw [h]
    simp
  | cons f fs ih =>
    intro s s'' h
    unfold applyUpdates at h
    cases hr : updateNode s k f with
    | error e => rw [hr] at h; cases h
    | ok p =>
      obtain ⟨n1, s1⟩ := p
      rw [hr] at h
      have htail := ih s1 s'' h
      have hstep := updateNode_count hr
      rw [htail, hstep, List.length_cons]
      omega

/-- C3: each successful `updateNode` changes only the supplied fields and
appends exactly one `node.updated` event whose before/after snapshots are
the stored node and the updated node; hence `k` successful updates raise
the `node.updated` count of `getNodeEvents` by exactly `k`. -/
theorem updateNode_single_event_per_update (s : Store) (k : NodeKey) :
    (∀ (f : UpdateFields) (n : Node) (s' : Store) (old : Node),
      s.findNode k = some old →
      updateNode s k f = .ok (n, s') →
        n.url = f.url.getD old.url ∧
        n.title = f.title.getD old.title ∧
        n.description = f.description.getD old.description ∧
        n.key = old.key ∧ n.createdAt = old.createdAt ∧
        (∃ ev, getNodeEvents s' k = getNodeEvents s k ++ [ev] ∧
          ev.eventType = .nodeUpdated ∧ ev.before = some old ∧ ev.after = some n) ∧
        countUpdatedEvents s' k = countUpdatedEvents s k + 1) ∧
    (∀ (fs : List UpdateFields) (s'' : Store),
      applyUpdates s k fs = some s'' →
      countUpdatedEvents s'' k = countUpdatedEvents s k + fs.length) := by
  constructor
  · intro f n s' old hfind h
    obtain ⟨old', hfind', hnode, hev⟩ := updateNode_anatomy h
    rw [hfind] at hfind'
    injection hfind' with hold
    subst hold
    refine ⟨by rw [hnode]; rfl, by rw [hnode]; rfl, by rw [hnode]; rfl,
      by rw [hnode]; rfl, by rw [hnode]; rfl, ?_, updateNode_count h⟩
    refine ⟨⟨s.nextEventId, k, .nodeUpdated, some old, some n, .pending, s.clock⟩,
      ?_, rfl, rfl, rfl⟩
    unfold getNodeEvents
    rw [hev, List.filter_append]
    simp
  · intro fs s'' h
    exact countUpdated_applyUpdates k fs s s'' h

/-- Concrete instance of C3: in a one-node store, one update appends the
`node.updated` event with the right snapshots, and a run of two successful
updates raises the count from 0 to 2. -/
theorem updateNode_single_event_per_update_witness :
    (∃ n s', updateNode nodeStore1 ⟨"d", 1⟩ ⟨none, some "T2", none⟩ = .ok (n, s') ∧
      n.url = "u" ∧ n.title = "T2" ∧ n.description = "x" ∧
      (∃ ev, getNodeEvents s' ⟨"d", 1⟩ = getNodeEvents nodeStore1 ⟨"d", 1⟩ ++ [ev] ∧
        ev.eventType = .nodeUpdated ∧
        ev.before = some ⟨⟨"d", 1⟩, "u", "t", "x", 0, 0⟩ ∧ ev.after = some n) ∧
      countUpdatedEvents s' ⟨"d", 1⟩ = countUpdatedEvents nodeStore1 ⟨"d", 1⟩ + 1) ∧
    (∃ s'', applyUpdates nodeStore1 ⟨"d", 1⟩ [⟨none, some "T2", none⟩, ⟨none, none, some "D2"⟩] = some s'' ∧
      countUpdatedEvents s'' ⟨"d", 1⟩ = 2) := by
  constructor
  · have h : updateNode nodeStore1 ⟨"d", 1⟩ ⟨none, some "T2", none⟩ =
        .ok (⟨⟨"d", 1⟩, "u", "T2", "x", 0, 0⟩,
          execStoreP (updateNode nodeStore1 ⟨"d", 1⟩ ⟨none, some "T2", none⟩) nodeStore1) := rfl
    obtain ⟨h1, h2, h3, _, _, h6, h7⟩ :=
      (updateNode_single_event_per_update nodeStore1 ⟨"d", 1⟩).1
        ⟨none, some "T2", none⟩ _ _ ⟨⟨"d", 1⟩, "u", "t", "x", 0, 0⟩ (by decide) h
    exact ⟨_, _, h, h1, h2, h3, h6, h7⟩
  · have h : applyUpdates nodeStore1 ⟨"d", 1⟩ [⟨none, some "T2", none⟩, ⟨none, none, some "D2"⟩]
        = some ((applyUpdates nodeStore1 ⟨"d", 1⟩ [⟨none, some "T2", none⟩, ⟨none, none, some "D2"⟩]).getD emptyStore) := rfl
    refine ⟨_, h, ?_⟩
    have := (updateNode_single_event_per_update nodeStore1 ⟨"d", 1⟩).2
      [⟨none, some "T2", none⟩, ⟨none, none, some "D2"⟩] _ h
    rw [this]
    rfl

/-- C6: `filterNodes` applies its filters conjunctively, reports
`total_count` as the number of matching nodes and
`total_pages = ceil(total_count / size)`; in particular with 3 matching
nodes, page 1 of size 2 returns counts (3, 2) and exactly the first 2
matching nodes in stable order. -/
theorem filterNodes_pagination (s : Store) (d : String)
    (fs : List AttrFilter) (page size : Nat) :
    (filterNodes s d fs page size).totalCount = (matchingNodes s d fs).length ∧
    (filterNodes s d fs page size).totalPages = (matchingNodes s d fs).length ⌈/⌉ size ∧
    (∀ n ∈ (filterNodes s d fs page size).nodes,
      n ∈ matchingNodes s d fs ∧ n.key.domain = d ∧
      ∀ f ∈ fs, nodeMatchesFilter s n f = true) ∧
    ((matchingNodes s d fs).length = 3 → size = 2 → page = 1 →
      (filterNodes s d fs page size).totalCount = 3 ∧
      (filterNodes s d fs page size).totalPages = 2 ∧
      (filterNodes s d fs page size).nodes = (matchingNodes s d fs).take 2) := by
  refine ⟨rfl, by rw [Nat.ceilDiv_eq_add_pred_div]; rfl, ?_, ?_⟩
  · intro n hn
    have hmem : n ∈ matchingNodes s d fs :=
      List.mem_of_mem_drop (List.mem_of_mem_take hn)
    have hpred := (List.mem_filter.mp hmem).2
    simp only [Bool.and_eq_true, beq_iff_eq, List.all_eq_true] at hpred
    exact ⟨hmem, hpred.1, hpred.2⟩
  · intro hlen hsize hpage
    subst hsize hpage
    refine ⟨hlen, ?_, ?_⟩
    · show ((matchingNodes s d fs).length + 2 - 1) / 2 = 2
      rw [hlen]
    · show ((matchingNodes s d fs).drop ((1 - 1) * 2)).take 2 = _
      rw [show (1 - 1) * 2 = 0 from rfl, List.drop_zero]

/-- Concrete instance of C6: the `shop` domain holds exactly 3
`category = electronics` nodes; page 1 of size 2 reports `total_count = 3`,
`total_pages = 2` and the first two matching nodes. -/
theorem filterNodes_pagination_witness :
    (filterNodes shopStore "shop" [⟨"category", "electronics", .equals⟩] 1 2).totalCount = 3 ∧
    (filterNodes shopStore "shop" [⟨"category", "electronics", .equals⟩] 1 2).totalPages = 2 ∧
    (filterNodes shopStore "shop" [⟨"category", "electronics", .equals⟩] 1 2).nodes
      = (matchingNodes shopStore "shop" [⟨"category", "electronics", .equals⟩]).take 2 :=
  (filterNodes_pagination shopStore "shop" [⟨"category", "electronics", .equals⟩] 1 2).2.2.2
    (by decide) rfl rfl

theorem elem_iff_mem {α : Type} [BEq α] [LawfulBEq α] (a : α) (as : List α) :
    List.elem a as = true ↔ a ∈ as := List.elem_iff

theorem cascadeExpand_sub (s : Store) (v : List NodeKey) :
    v ⊆ cascadeExpand s v :=
  fun _ hx => List.mem_append_left _ hx

theorem cascadeIter_sub (s : Store) (j : Nat) :
    ∀ v : List NodeKey, v ⊆ cascadeIter s j v := by
  induction j with
  | zero => intro v; exact fun _ hx => hx
  | succ j ih =>
    intro v
    exact fun x hx => ih (cascadeExpand s v) (cascadeExpand_sub s v hx)

theorem cascadeIter_succ_eq (s : Store) (j : Nat) :
    ∀ v : List NodeKey, cascadeIter s (j + 1) v = cascadeExpand s (cascadeIter s j v) := by
  induction j with
  | zero => intro v; rfl
  | succ j ih =>
    intro v
    show cascadeIter s (j + 1) (cascadeExpand s v) = _
    rw [ih (cascadeExpand s v)]
    rfl

theorem cascadeIter_add (s : Store) (a b : Nat) (v : List NodeKey) :
    cascadeIter s (a + b) v = cascadeIter s a (cascadeIter s b v) := by
  induction b generalizing v with
  | zero => rfl
  | succ b ih => exact ih (cascadeExpand s v)

theorem cascadeExpand_eq_of_subset {s : Store} {v : List NodeKey}
    (h : cascadeExpand s v ⊆ v) : cascadeExpand s v = v := by
  unfold cascadeExpand at h ⊢
  have hnil : ((s.deps.filter (fun d =>
      v.contains d.source && d.cascadeDelete && s.nodeExists d.target
        && !v.contains d.target)).map (fun d => d.target)).dedup = [] := by
    rw [List.eq_nil_iff_forall_not_mem]
    intro t ht
    have htv : t ∈ v := h (List.mem_append_right _ ht)
    rw [List.mem_dedup, List.mem_map] at ht
    obtain ⟨d, hd, rfl⟩ := ht
    have := (List.mem_filter.mp hd).2
    simp only [Bool.and_eq_true, Bool.not_eq_eq_eq_not, Bool.not_true] at this
    have hcontains : v.contains d.target = false := by
      simpa using this.2
    rw [← elem_iff_mem d.target v] at htv
    rw [show (List.elem d.target v) = v.contains d.target from rfl, hcontains] at htv
    cases htv
  rw [hnil, List.append_nil]

theorem cascadeIter_fix {s : Store} {v : List NodeKey}
    (h : cascadeExpand s v = v) (j : Nat) : cascadeIter s j v = v := by
  induction j with
  | zero => rfl
  | succ j ih =>
    rw [cascadeIter_succ_eq, ih, h]

theorem cascadeExpand_nodup {s : Store} {v : List NodeKey}
    (h : v.Nodup) : (cascadeExpand s v).Nodup := by
  unfold cascadeExpand
  refine List.Nodup.append h (List.nodup_dedup _) ?_
  intro x hxv hxnew
  rw [List.mem_dedup, List.mem_map] at hxnew
  obtain ⟨d, hd, rfl⟩ := hxnew
  have hpred := (List.mem_filter.mp hd).2
  simp only [Bool.and_eq_true, Bool.not_eq_eq_eq_not, Bool.not_true] at hpred
  have hcontains : v.contains d.target = false := by simpa using hpred.2
  rw [← elem_iff_mem d.target v] at hxv
  rw [show (List.elem d.target v) = v.contains d.target from rfl, hcontains] at hxv
  cases hxv

theorem cascadeExpand_all_exist {s : Store} {v : List NodeKey}
    (h : ∀ x ∈ v, s.nodeExists x = true) :
    ∀ x ∈ cascadeExpand s v, s.nodeExists x = true := by
  intro x hx
  rcases List.mem_append.mp hx with hxv | hxnew
  · exact h x hxv
  · rw [List.mem_dedup, List.mem_map] at hxnew
    obtain ⟨d, hd, rfl⟩ := hxnew
    have hpred := (List.mem_filter.mp hd).2
    simp only [Bool.and_eq_true] at hpred
    exact hpred.1.2

theorem cascadeIter_invariant (s : Store) (j : Nat) :
    ∀ v : List NodeKey, v.Nodup → (∀ x ∈ v, s.nodeExists x = true) →
      (cascadeIter s j v).Nodup ∧
        (∀ x ∈ cascadeIter s j v, s.nodeExists x = true) := by
  induction j with
  | zero => intro v h1 h2; exact ⟨h1, h2⟩
  | succ j ih =>
    intro v h1 h2
    exact ih (cascadeExpand s v) (cascadeExpand_nodup h1) (cascadeExpand_all_exist h2)

theorem length_le_nodes_of_exists {s : Store} {v : List NodeKey}
    (h1 : v.Nodup) (h2 : ∀ x ∈ v, s.nodeExists x = true) :
    v.length ≤ s.nodes.length := by
  have hsub : v ⊆ s.nodes.map Node.key := by
    intro x hx
    have := h2 x hx
    unfold Store.nodeExists at this
    rw [List.any_eq_true] at this
    obtain ⟨n, hn, hkey⟩ := this
    rw [List.mem_map]
    exact ⟨n, hn, by simpa using hkey⟩
  have := (List.subperm_of_subset h1 hsub).length_le
  simpa using this

theorem cascadeExpand_grow {s : Store} {v : List NodeKey}
    (h : cascadeExpand s v ≠ v) :
    v.length + 1 ≤ (cascadeExpand s v).length := by
  unfold cascadeExpand at h ⊢
  rcases hnil : ((s.deps.filter (fun d =>
      v.contains d.source && d.cascadeDelete && s.nodeExists d.target
        && !v.contains d.target)).map (fun d => d.target)).dedup with _ | ⟨t, ts⟩
  · rw [hnil, List.append_nil] at h
    exact absurd rfl h
  · rw [hnil, List.length_append, List.length_cons]
    omega

/-- Iterating the cascade step as many times as there are nodes reaches a
fixpoint of the expansion. -/
theorem cascadeSet_fix {s : Store} {k : NodeKey} (hk : s.nodeExists k = true) :
    cascadeExpand s (cascadeSet s k) = cascadeSet s k := by
  by_cases hfix : ∃ i ≤ s.nodes.length,
      cascadeExpand s (cascadeIter s i [k]) = cascadeIter s i [k]
  · obtain ⟨i, hiN, hfi⟩ := hfix
    have hset : cascadeSet s k = cascadeIter s i [k] := by
      unfold cascadeSet
      rw [show s.nodes.length = (s.nodes.length - i) + i from
        (Nat.sub_add_cancel hiN).symm]
      rw [cascadeIter_add]
      exact cascadeIter_fix hfi (s.nodes.length - i)
    rw [hset, hfi]
  · exfalso
    push_neg at hfix
    have hgrow : ∀ i, i ≤ s.nodes.length →
        i + 1 ≤ (cascadeIter s i [k]).length := by
      intro i
      induction i with
      | zero => intro _; simp [cascadeIter]
      | succ i ih =>
        intro hiN
        have h1 := ih (Nat.le_of_succ_le hiN)
        have h2 := cascadeExpand_grow (hfix i (Nat.le_of_succ_le hiN))
        rw [cascadeIter_succ_eq]
        omega
    have hlast := hgrow s.nodes.length le_rfl
    have hinv := cascadeIter_invariant s s.nodes.length [k] (by simp)
      (by intro x hx; simp at hx; subst hx; exact hk)
    have hle := length_le_nodes_of_exists hinv.1 hinv.2
    omega

/-- Everything the cascade iteration collects is reachable. -/
theorem cascadeIter_sound (s : Store) (k : NodeKey) (j : Nat) :
    ∀ v, (∀ x ∈ v, Reach s k x) → ∀ m ∈ cascadeIter s j v, Reach s k m := by
  induction j with
  | zero => intro v hv m hm; exact hv m hm
  | succ j ih =>
    intro v hv m hm
    refine ih (cascadeExpand s v) ?_ m hm
    intro x hx
    rcases List.mem_append.mp hx with hxv | hxnew
    · exact hv x hxv
    · rw [List.mem_dedup, List.mem_map] at hxnew
      obtain ⟨d, hd, rfl⟩ := hxnew
      have hpred := (List.mem_filter.mp hd).2
      simp only [Bool.and_eq_true] at hpred
      obtain ⟨⟨⟨hsrc, hcasc⟩, hex⟩, _⟩ := hpred
      have hsrcmem : d.source ∈ v := by
        rw [← elem_iff_mem d.source v]
        exact hsrc
      exact Reach.step d (hv d.source hsrcmem) (List.mem_filter.mp hd).1 rfl hcasc hex

/-- Soundness: every member of the cascade set is reachable from the
deleted node through `cascade_delete = true` edges. -/
theorem cascadeSet_sound (s : Store) (k : NodeKey) :
    ∀ m ∈ cascadeSet s k, Reach s k m :=
  cascadeIter_sound s k s.nodes.length [k]
    (by intro x hx; simp at hx; subst hx; exact Reach.refl)

/-- The deleted node itself belongs to its cascade set. -/
theorem mem_cascadeSet_self (s : Store) (k : NodeKey) : k ∈ cascadeSet s k :=
  cascadeIter_sub s s.nodes.length [k] (by simp)

/-- Completeness: every node reachable through `cascade_delete = true`
edges is in the cascade set (transitive cascade, cycle-safe). -/
theorem cascadeSet_complete {s : Store} {k m : NodeKey}
    (hk : s.nodeExists k = true) (h : Reach s k m) : m ∈ cascadeSet s k := by
  induction h with
  | refl => exact mem_cascadeSet_self s k
  | step d hm hd hsrc hc ht ih =>
    rw [← cascadeSet_fix hk]
    by_cases htgt : d.target ∈ cascadeSet s k
    · exact cascadeExpand_sub s _ htgt
    · apply List.mem_append_right
      rw [List.mem_dedup, List.mem_map]
      refine ⟨d, ?_, rfl⟩
      rw [List.mem_filter]
      refine ⟨hd, ?_⟩
      simp only [Bool.and_eq_true]
      refine ⟨⟨⟨?_, hc⟩, ht⟩, ?_⟩
      · show List.elem d.source (cascadeSet s k) = true
        rw [elem_iff_mem d.source (cascadeSet s k), hsrc]
        exact ih
      · rw [Bool.not_eq_eq_eq_not, Bool.not_true]
        rcases hcontains : (cascadeSet s k).contains d.target with _ | _
        · rfl
        · exfalso
          apply htgt
          rw [← elem_iff_mem d.target (cascadeSet s k)]
          exact hcontains

/-- Folding `recordEvent` over a node list leaves every state component
but the event log (and event-id counter) unchanged. -/
theorem foldl_record_state (lst : List Node) :
    ∀ s : Store,
      (lst.foldl (fun acc n => acc.recordEvent n.key .nodeDeleted (some n) none) s).nodes = s.nodes ∧
      (lst.foldl (fun acc n => acc.recordEvent n.key .nodeDeleted (some n) none) s).attrValues = s.attrValues ∧
      (lst.foldl (fun acc n => acc.recordEvent n.key .nodeDeleted (some n) none) s).deps = s.deps ∧
      (lst.foldl (fun acc n => acc.recordEvent n.key .nodeDeleted (some n) none) s).clock = s.clock := by
  induction lst with
  | nil => intro s; exact ⟨rfl, rfl, rfl, rfl⟩
  | cons a as ih =>
    intro s
    exact ih (s.recordEvent a.key .nodeDeleted (some a) none)

/-- Folding `recordEvent` over a node list appends one `node.deleted` event
per node, in order, each carrying that node as its `before` snapshot. -/
theorem foldl_record_events (lst : List Node) :
    ∀ s : Store, ∃ evs : List Event,
      (lst.foldl (fun acc n => acc.recordEvent n.key .nodeDeleted (some n) none) s).events
        = s.events ++ evs ∧
      evs.map Event.nodeKey = lst.map Node.key ∧
      ∀ e ∈ evs, e.eventType = .nodeDeleted ∧ e.status = .pending ∧
        ∃ n ∈ lst, e.nodeKey = n.key ∧ e.before = some n ∧ e.after = none := by
  induction lst with
  | nil => intro s; exact ⟨[], by simp, rfl, by simp⟩
  | cons a as ih =>
    intro s
    obtain ⟨evs, h1, h2, h3⟩ := ih (s.recordEvent a.key .nodeDeleted (some a) none)
    refine ⟨⟨s.nextEventId, a.key, .nodeDeleted, some a, none, .pending, s.clock⟩ :: evs,
      ?_, ?_, ?_⟩
    · rw [show ((a :: as).foldl (fun acc n => acc.recordEvent n.key .nodeDeleted (some n) none) s)
          = as.foldl (fun acc n => acc.recordEvent n.key .nodeDeleted (some n) none)
              (s.recordEvent a.key .nodeDeleted (some a) none) from rfl]
      rw [h1]
      show (s.events ++ [_]) ++ evs = s.events ++ _ :: evs
      simp
    · simp [h2]
    · intro e he
      rcases List.mem_cons.mp he with rfl | hmem
      · exact ⟨rfl, rfl, a, by simp, rfl, rfl, rfl⟩
      · obtain ⟨ht, hst, n, hn, hrest⟩ := h3 e hmem
        exact ⟨ht, hst, n, by simp [hn], hrest⟩

/-- Anatomy of a successful `deleteNode`: the cascade set of nodes, their
attribute values and all edges touching them are removed, and one
`node.deleted` event per deleted node is appended to the (never truncated)
event log. -/
theorem deleteNode_anatomy {s : Store} {k : NodeKey} {s' : Store}
    (h : deleteNode s k = .ok s') :
    s.nodeExists k = true ∧
    s'.nodes = s.nodes.filter (fun n => !(cascadeSet s k).contains n.key) ∧
    s'.attrValues = s.attrValues.filter (fun v => !(cascadeSet s k).contains v.node) ∧
    s'.deps = s.deps.filter (fun d =>
      !(cascadeSet s k).contains d.source && !(cascadeSet s k).contains d.target) ∧
    ∃ evs, s'.events = s.events ++ evs ∧
      evs.map Event.nodeKey
        = (s.nodes.filter (fun n => (cascadeSet s k).contains n.key)).map Node.key ∧
      ∀ e ∈ evs, e.eventType = .nodeDeleted ∧
        ∃ n ∈ s.nodes.filter (fun n => (cascadeSet s k).contains n.key),
          e.nodeKey = n.key ∧ e.before = some n := by
  unfold deleteNode at h
  by_cases hk : s.nodeExists k = true
  · rw [if_pos hk] at h
    injection h with hs'
    have hstate := foldl_record_state
      (s.nodes.filter (fun n => (cascadeSet s k).contains n.key))
      { s with nodes := s.nodes.filter (fun n => !(cascadeSet s k).contains n.key), attrValues := s.attrValues.filter (fun v => !(cascadeSet s k).contains v.node), deps := s.deps.filter (fun d => !(cascadeSet s k).contains d.source && !(cascadeSet s k).contains d.target) }
    obtain ⟨evs, he1, he2, he3⟩ := foldl_record_events
      (s.nodes.filter (fun n => (cascadeSet s k).contains n.key))
      { s with nodes := s.nodes.filter (fun n => !(cascadeSet s k).contains n.key), attrValues := s.attrValues.filter (fun v => !(cascadeSet s k).contains v.node), deps := s.deps.filter (fun d => !(cascadeSet s k).contains d.source && !(cascadeSet s k).contains d.target) }
    refine ⟨hk, ?_, ?_, ?_, evs, ?_, he2, fun e he => ?_⟩
    · rw [← hs']; exact hstate.1
    · rw [← hs']; exact hstate.2.1
    · rw [← hs']; exact hstate.2.2.1
    · rw [← hs']; exact he1
    · obtain ⟨ht, _, n, hn, hkey, hbef, _⟩ := he3 e he
      exact ⟨ht, n, hn, hkey, hbef⟩
  · rw [if_neg hk] at h
    cases h

theorem contains_iff_mem {l : List NodeKey} {x : NodeKey} :
    l.contains x = true ↔ x ∈ l := by
  rw [show (l.contains x) = List.elem x l from rfl,
    elem_iff_mem x l]

/-- In a node list with pairwise distinct keys, the keys of the sub-list
kept by a key-set filter count an occurring, kept key exactly once. -/
theorem count_key_filter {l : List Node} {del : List NodeKey} {k : NodeKey}
    (hnodup : (l.map Node.key).Nodup) (hex : ∃ n ∈ l, n.key = k)
    (hdel : k ∈ del) :
    ((l.filter (fun n => del.contains n.key)).map Node.key).count k = 1 := by
  induction l with
  | nil => simp at hex
  | cons a as ih =>
    simp only [List.map_cons, List.nodup_cons] at hnodup
    obtain ⟨hna, hnas⟩ := hnodup
    by_cases hak : a.key = k
    · have hcont : del.contains a.key = true := by
        rw [contains_iff_mem, hak]; exact hdel
      rw [show (a :: as).filter (fun n => del.contains n.key)
          = a :: as.filter (fun n => del.contains n.key) from by
        rw [List.filter_cons]; simp [hak, hdel]]
      rw [List.map_cons, List.count_cons]
      have hzero : ((as.filter (fun n => del.contains n.key)).map Node.key).count k = 0 := by
        rw [List.count_eq_zero]
        intro hcontra
        apply hna
        rw [List.mem_map] at hcontra
        obtain ⟨n, hn, hkk⟩ := hcontra
        rw [← hak] at hkk
        rw [List.mem_map]
        exact ⟨n, (List.mem_filter.mp hn).1, hkk⟩
      rw [hzero]
      simp [hak]
    · have hextail : ∃ n ∈ as, n.key = k := by
        obtain ⟨n, hn, hkk⟩ := hex
        rcases List.mem_cons.mp hn with rfl | hmem
        · exact absurd hkk hak
        · exact ⟨n, hmem, hkk⟩
      by_cases hcont : del.contains a.key = true
      · have hmem : a.key ∈ del := contains_iff_mem.mp hcont
        rw [show (a :: as).filter (fun n => del.contains n.key)
            = a :: as.filter (fun n => del.contains n.key) from by
          rw [List.filter_cons]; simp [hmem]]
        rw [List.map_cons, List.count_cons, ih hnas hextail]
        have hne : (a.key == k) = false := by
          simp only [beq_eq_false_iff_ne, ne_eq]
          exact hak
        rw [hne]
        simp
      · have hmem : a.key ∉ del := fun hm => hcont (contains_iff_mem.mpr hm)
        rw [show (a :: as).filter (fun n => del.contains n.key)
            = as.filter (fun n => del.contains n.key) from by
          rw [List.filter_cons]; simp [hmem]]
        exact ih hnas hextail

/-- C10: after a successful `deleteNode(N)`, `getNodeEvents(N)` still
returns N's complete prior history followed by the final `node.deleted`
event; the node, its attribute values and its edges are gone, but no
already-recorded Event record is ever removed. -/
theorem deleteNode_preserves_event_history (s : Store) (k : NodeKey) (s' : Store)
    (hnodup : (s.nodes.map Node.key).Nodup)
    (h : deleteNode s k = .ok s') :
    (∃ evs, s'.events = s.events ++ evs) ∧
    (∃ ev, getNodeEvents s' k = getNodeEvents s k ++ [ev] ∧
      ev.eventType = .nodeDeleted ∧ ev.nodeKey = k ∧
      ∃ n, ev.before = some n ∧ n.key = k) ∧
    s'.nodeExists k = false ∧
    (∀ v ∈ s'.attrValues, v.node ≠ k) ∧
    (∀ d ∈ s'.deps, d.source ≠ k ∧ d.target ≠ k) := by
  obtain ⟨hk, hnodes, hvals, hdeps, evs, hev, hmap, hprops⟩ := deleteNode_anatomy h
  have hkdel : k ∈ cascadeSet s k := mem_cascadeSet_self s k
  have hexn : ∃ n ∈ s.nodes, n.key = k := by
    unfold Store.nodeExists at hk
    rw [List.any_eq_true] at hk
    obtain ⟨n, hn, hkk⟩ := hk
    exact ⟨n, hn, by simpa using hkk⟩
  refine ⟨⟨evs, hev⟩, ?_, ?_, ?_, ?_⟩
  · -- the one new event for k at the end of the node's history
    have hcount : (evs.filter (fun e => e.nodeKey == k)).length = 1 := by
      rw [← List.countP_eq_length_filter]
      have h1 : (evs.map Event.nodeKey).count k = 1 := by
        rw [hmap]
        exact count_key_filter hnodup hexn hkdel
      rw [List.count, List.countP_map] at h1
      exact h1
    obtain ⟨ev, hevone⟩ := List.length_eq_one.mp hcount
    have hevmem : ev ∈ evs ∧ (ev.nodeKey == k) = true := by
      have : ev ∈ evs.filter (fun e => e.nodeKey == k) := by rw [hevone]; simp
      exact ⟨(List.mem_filter.mp this).1, (List.mem_filter.mp this).2⟩
    obtain ⟨htype, n, hnmem, hnkey, hnbef⟩ := hprops ev hevmem.1
    have hkey : ev.nodeKey = k := by simpa using hevmem.2
    refine ⟨ev, ?_, htype, hkey, n, hnbef, by rw [← hnkey, hkey]⟩
    unfold getNodeEvents
    rw [hev, List.filter_append, hevone]
  · rcases hne : s'.nodeExists k with _ | _
    · rfl
    · exfalso
      unfold Store.nodeExists at hne
      rw [List.any_eq_true] at hne
      obtain ⟨n, hn, hkk⟩ := hne
      rw [hnodes, List.mem_filter] at hn
      have hkeq : n.key = k := by simpa using hkk
      have := hn.2
      rw [hkeq] at this
      rw [Bool.not_eq_eq_eq_not, Bool.not_true] at this
      rw [← contains_iff_mem] at hkdel
      rw [this] at hkdel
      cases hkdel
  · intro v hv
    rw [hvals, List.mem_filter] at hv
    intro hvk
    have := hv.2
    rw [hvk, Bool.not_eq_eq_eq_not, Bool.not_true] at this
    rw [← contains_iff_mem, this] at hkdel
    cases hkdel
  · intro d hd
    rw [hdeps, List.mem_filter] at hd
    have hpred := hd.2
    simp only [Bool.and_eq_true, Bool.not_eq_eq_eq_not, Bool.not_true] at hpred
    constructor
    · intro hsk
      have := hpred.1
      rw [hsk] at this
      rw [← contains_iff_mem, this] at hkdel
      cases hkdel
    · intro htk
      have := hpred.2
      rw [htk] at this
      rw [← contains_iff_mem, this] at hkdel
      cases hkdel

/-- Every node reachable from an existing node exists. -/
theorem Reach_nodeExists {s : Store} {k m : NodeKey}
    (hk : s.nodeExists k = true) (h : Reach s k m) : s.nodeExists m = true := by
  induction h with
  | refl => exact hk
  | step d hm hd hsrc hc ht ih => exact ht

/-- C2: a successful `deleteNode(N)` transitively deletes every node
reachable from N through `cascade_delete = true` edges (the traversal is
cycle-safe by construction), emitting a `node.deleted` event for each;
the target of a direct `cascade_delete = true` edge is reachable; every
edge leaving N is removed; and the target of a `cascade_delete = false`
edge survives (unless it is separately reachable). -/
theorem deleteNode_cascade_semantics (s : Store) (k : NodeKey) (s' : Store)
    (h : deleteNode s k = .ok s') :
    (∀ m, Reach s k m → s'.nodeExists m = false ∧
      ∃ e ∈ s'.events, e.nodeKey = m ∧ e.eventType = .nodeDeleted) ∧
    (∀ d ∈ s.deps, d.source = k → d.cascadeDelete = true →
      s.nodeExists d.target = true → Reach s k d.target) ∧
    (∀ d ∈ s.deps, d.source = k → d ∉ s'.deps) ∧
    (∀ d ∈ s.deps, d.source = k → d.cascadeDelete = false →
      ¬ Reach s k d.target → s.nodeExists d.target = true →
      s'.nodeExists d.target = true) := by
  obtain ⟨hk, hnodes, hvals, hdeps, evs, hev, hmap, hprops⟩ := deleteNode_anatomy h
  refine ⟨?_, ?_, ?_, ?_⟩
  · intro m hreach
    have hmdel : m ∈ cascadeSet s k := cascadeSet_complete hk hreach
    constructor
    · rcases hne : s'.nodeExists m with _ | _
      · rfl
      · exfalso
        unfold Store.nodeExists at hne
        rw [List.any_eq_true] at hne
        obtain ⟨n, hn, hkk⟩ := hne
        rw [hnodes, List.mem_filter] at hn
        have hkeq : n.key = m := by simpa using hkk
        have hpred := hn.2
        rw [hkeq, Bool.not_eq_eq_eq_not, Bool.not_true] at hpred
        rw [← contains_iff_mem, hpred] at hmdel
        cases hmdel
    · have hmex : s.nodeExists m = true := Reach_nodeExists hk hreach
      unfold Store.nodeExists at hmex
      rw [List.any_eq_true] at hmex
      obtain ⟨n, hn, hkk⟩ := hmex
      have hkeq : n.key = m := by simpa using hkk
      have hnfil : n ∈ s.nodes.filter (fun n => (cascadeSet s k).contains n.key) := by
        rw [List.mem_filter]
        exact ⟨hn, by rw [hkeq, contains_iff_mem]; exact hmdel⟩
      have hmmap : m ∈ evs.map Event.nodeKey := by
        rw [hmap, List.mem_map]
        exact ⟨n, hnfil, hkeq⟩
      rw [List.mem_map] at hmmap
      obtain ⟨e, hemem, hekey⟩ := hmmap
      exact ⟨e, by rw [hev]; exact List.mem_append_right _ hemem,
        hekey, (hprops e hemem).1⟩
  · intro d hd hsrc hc ht
    exact Reach.step d (by rw [hsrc]; exact Reach.refl) hd rfl hc ht
  · intro d hd hsrc hmem
    rw [hdeps, List.mem_filter] at hmem
    have hpred := hmem.2
    simp only [Bool.and_eq_true, Bool.not_eq_eq_eq_not, Bool.not_true] at hpred
    have h1 := hpred.1
    rw [hsrc] at h1
    have hkdel := mem_cascadeSet_self s k
    rw [← contains_iff_mem, h1] at hkdel
    cases hkdel
  · intro d hd hsrc hcfalse hnoreach htex
    have htnotdel : d.target ∉ cascadeSet s k := by
      intro hmem
      exact hnoreach (cascadeSet_sound s k d.target hmem)
    unfold Store.nodeExists at htex ⊢
    rw [List.any_eq_true] at htex
    obtain ⟨n, hn, hkk⟩ := htex
    rw [List.any_eq_true]
    refine ⟨n, ?_, hkk⟩
    rw [hnodes, List.mem_filter]
    refine ⟨hn, ?_⟩
    have hkeq : n.key = d.target := by simpa using hkk
    rw [hkeq, Bool.not_eq_eq_eq_not, Bool.not_true]
    rcases hcontains : (cascadeSet s k).contains d.target with _ | _
    · rfl
    · exact absurd (contains_iff_mem.mp hcontains) htnotdel

/-- Concrete instance of C2: deleting `d:1` also deletes the
`cascade_delete = true` target `d:2` (each with a `node.deleted` event),
keeps the `cascade_delete = false` target `d:3` alive, and removes the
outgoing edge. -/
theorem deleteNode_cascade_semantics_witness :
    ∃ s', deleteNode cascadeStore ⟨"d", 1⟩ = .ok s' ∧
      s'.nodeExists ⟨"d", 2⟩ = false ∧
      (∃ e ∈ s'.events, e.nodeKey = (⟨"d", 2⟩ : NodeKey) ∧ e.eventType = .nodeDeleted) ∧
      (∃ e ∈ s'.events, e.nodeKey = (⟨"d", 1⟩ : NodeKey) ∧ e.eventType = .nodeDeleted) ∧
      s'.nodeExists ⟨"d", 3⟩ = true ∧
      (⟨⟨"d", 1⟩, ⟨"d", 2⟩, .hard, true, false, "", []⟩ : Dependency) ∉ s'.deps := by
  have h : deleteNode cascadeStore ⟨"d", 1⟩
      = .ok (execStore (deleteNode cascadeStore ⟨"d", 1⟩) cascadeStore) := rfl
  obtain ⟨h1, h2, h3, h4⟩ := deleteNode_cascade_semantics cascadeStore ⟨"d", 1⟩ _ h
  have hreachB : Reach cascadeStore ⟨"d", 1⟩ ⟨"d", 2⟩ :=
    h2 ⟨⟨"d", 1⟩, ⟨"d", 2⟩, .hard, true, false, "", []⟩ (by decide) rfl rfl (by decide)
  refine ⟨_, h, (h1 _ hreachB).1, (h1 _ hreachB).2, (h1 _ Reach.refl).2, ?_, ?_⟩
  · refine h4 ⟨⟨"d", 1⟩, ⟨"d", 3⟩, .soft, false, false, "", []⟩ (by decide) rfl rfl ?_ (by decide)
    intro hr
    have hmem := @cascadeSet_complete cascadeStore ⟨"d", 1⟩ ⟨"d", 3⟩ (by decide) hr
    exact absurd hmem (by decide)
  · exact h3 _ (by decide) rfl

/-- Concrete instance of C10: after deleting `d:1`, `getNodeEvents` still
returns the prior history followed by the `node.deleted` event, while the
node and its attribute values are gone. -/
theorem deleteNode_preserves_event_history_witness :
    ∃ s', deleteNode delStore ⟨"d", 1⟩ = .ok s' ∧
      (∃ ev, getNodeEvents s' ⟨"d", 1⟩ = getNodeEvents delStore ⟨"d", 1⟩ ++ [ev] ∧
        ev.eventType = .nodeDeleted) ∧
      s'.nodeExists ⟨"d", 1⟩ = false ∧
      (∀ v ∈ s'.attrValues, v.node ≠ (⟨"d", 1⟩ : NodeKey)) := by
  have h : deleteNode delStore ⟨"d", 1⟩
      = .ok (execStore (deleteNode delStore ⟨"d", 1⟩) delStore) := rfl
  obtain ⟨hpre, ⟨ev, hev1, hev2, _⟩, hne, hvals, _⟩ :=
    deleteNode_preserves_event_history delStore ⟨"d", 1⟩ _ (by decide) h
  exact ⟨_, h, ⟨ev, hev1, hev2⟩, hne, hvals⟩

end UrlDb
